import Mathlib

/-!
Verification of the TreeEditor core (src/app.py): the flat flow/graph
representation, the nested tree representation, the two conversions
between them (`_flow_to_children` and `_children_to_flow`), root
inference (`_flow_root_title`), and the tree mutation handlers
(`find_node`, `api_add_node`, `api_edit_node`, `api_delete_node`,
`load_tree`).

Python recursion is modeled either by mutual structural recursion over
the nested tree type or, for the graph expansion (whose recursion is
bounded by the cycle guard rather than by the input structure), by an
explicit fuel parameter; the fuel is a modeling artifact and is shown
to be irrelevant beyond the bound actually used (`buildF_fuel_stable`).
-/

namespace TreeEditor

/-- A labeled edge in the flat flow format: the dict `{"label": ..., "next": title}`.
`label` is `none` when the `"label"` key is absent; `next` is the target title.
(The source also tolerates bare-string edges and edge dicts without a `"next"`
key; the modeled input space is edge dicts carrying a `"next"` key, which is
the only edge shape the application itself ever writes, and on which the
source's two edge-reading sites `e.get("next")`/`edge["next"]` agree.) -/
structure Edge where
  label : Option String
  next : String
  deriving DecidableEq, Repr

/-- A node of the flat flow format: the dict `{"id"?: ..., "title": ...,
"description"?: ..., "next": [...]}`. `id`/`description` are `none` when the
key is absent (the source reads them with `src.get("id", title)` and
`src.get("description", "")`). -/
structure GraphNode where
  id : Option String
  title : String
  description : Option String
  next : List Edge
  deriving DecidableEq, Repr

/-- A node of the nested tree format: the dict `{"id": ..., "title": ...,
"description": ..., "edgeLabel"?: ..., "children": [...]}`. `edgeLabel` is
`none` when the key is absent (the roots produced by `_flow_to_children` carry
no `edgeLabel` key). -/
inductive TreeNode where
  | mk (id title description : String) (edgeLabel : Option String)
       (children : List TreeNode)

def TreeNode.id : TreeNode → String
  | .mk i _ _ _ _ => i

def TreeNode.title : TreeNode → String
  | .mk _ t _ _ _ => t

def TreeNode.description : TreeNode → String
  | .mk _ _ d _ _ => d

def TreeNode.edgeLabel : TreeNode → Option String
  | .mk _ _ _ l _ => l

def TreeNode.children : TreeNode → List TreeNode
  | .mk _ _ _ _ cs => cs

/-- First-occurrence deduplication: the key sequence of the Python dict
`{n["title"]: n for n in flow}` (keys keep their first-insertion position;
later duplicates do not move a key). -/
def dedupFO : List String → List String
  | [] => []
  | a :: l => a :: (dedupFO l).filter (fun x => decide (x ≠ a))

/-- The `referenced` set of `_flow_root_title`: every edge target `tgt` with
`if tgt:` truthy, i.e. every non-empty target title. Collected as a list;
only membership is ever used. -/
def referencedOf (flow : List GraphNode) : List String :=
  flow.flatMap (fun n => (n.next.map Edge.next).filter (fun t => decide (t ≠ "")))

/-- `_flow_root_title(flow)`: `"START"` if some node has that title, else the
first dict key (first node title in input order) not in `referenced`, else
`flow[0]["title"]`. On the empty list the Python raises `IndexError` at the
final fallback; the model returns `""` there (all claims assume a non-empty
flow). -/
def flowRootTitle (flow : List GraphNode) : String :=
  let keys := dedupFO (flow.map GraphNode.title)
  let referenced := referencedOf flow
  if "START" ∈ keys then "START"
  else
    match keys.find? (fun t => decide (¬ t ∈ referenced)) with
    | some t => t
    | none =>
      match flow with
      | [] => ""
      | n :: _ => n.title

/-- Lookup in the Python dict `by_title = {n["title"]: n for n in flow}`:
the LAST node with a given title wins (later comprehension entries overwrite
earlier values). -/
def byTitle : List GraphNode → String → Option GraphNode
  | [], _ => none
  | n :: rest, t =>
    match byTitle rest t with
    | some v => some v
    | none => if n.title = t then some n else none

/-- The stub tree node `build` synthesizes for a missing reference:
`{"id": "missing:"+title, "title": title, "description": "", "children": []}`. -/
def stubNode (title : String) : TreeNode := .mk ("missing:" ++ title) title "" none []

/-- `if isinstance(edge, dict) and "label" in edge: child["edgeLabel"] = edge["label"]`:
store the edge's label on the freshly built child when the label key is present. -/
def withLabel (e : Edge) (c : TreeNode) : TreeNode :=
  match e.label with
  | some l => .mk c.id c.title c.description (some l) c.children
  | none => c

/-- The recursive `build(title, seen)` of `_flow_to_children`, with an explicit
fuel bounding the recursion depth. The fuel-0 value is unreachable for
`fuel > ` the number of still-unseen flow titles (`buildF_fuel_stable`). -/
def buildF (flow : List GraphNode) : Nat → String → List String → TreeNode
  | 0, _, _ => .mk "" "" "" none []
  | fuel + 1, title, seen =>
    match byTitle flow title with
    | none => stubNode title
    | some src =>
      if title ∈ seen then
        .mk (src.id.getD title) src.title (src.description.getD "") none []
      else
        .mk (src.id.getD title) src.title (src.description.getD "") none
          (src.next.map (fun e => withLabel e (buildF flow fuel e.next (title :: seen))))

/-- `_flow_to_children(flow)`: expand the flow into a nested tree from the
inferred root. `flow.length + 1` fuel is enough: every recursive step consumes
one still-unseen title of the flow. -/
def flow_to_children (flow : List GraphNode) : TreeNode :=
  buildF flow (flow.length + 1) (flowRootTitle flow) []

/-- The node-id `_children_to_flow.ensure_node` stores: `n.get("id") or t`
(`or` makes an empty-string id fall back to the title, like an absent key). -/
def nidOf (n : TreeNode) : String := if n.id = "" then n.title else n.id

/-- The label carried on the flow edge for a child: `c.get("edgeLabel", "")`. -/
def labelOf (c : TreeNode) : String := c.edgeLabel.getD ""

/-- The flow edge `_children_to_flow.walk` pushes for a parent/child pair:
`{"label": c.get("edgeLabel", ""), "next": c.get("title", "")}`. -/
def edgeFor (c : TreeNode) : Edge := ⟨some (labelOf c), c.title⟩

/-- The `nodes` dict of `_children_to_flow`, as an association list in key
insertion order (Python dicts preserve insertion order). -/
abbrev NM := List (String × GraphNode)

/-- Dict lookup (the keys of an `NM` built by `ensure_node` are distinct). -/
def lookupT : NM → String → Option GraphNode
  | [], _ => none
  | (k, v) :: rest, t => if k = t then some v else lookupT rest t

/-- `ensure_node(n)`: insert `{"id": nid, "title": t, "description": ..., "next": []}`
under key `t` unless the key is already present; new keys go to the end
(dict insertion order). -/
def ensure_node (nodes : NM) (n : TreeNode) : NM :=
  if (lookupT nodes n.title).isSome then nodes
  else nodes ++ [(n.title, ⟨some (nidOf n), n.title, some n.description, []⟩)]

/-- `nodes[t]["next"].append(e)`: append an edge to the entry stored under
key `t` (a no-op when the key is absent; in the source the key is always
present at every call site). -/
def appendEdge (nodes : NM) (t : String) (e : Edge) : NM :=
  nodes.map (fun p => if p.1 = t then (p.1, ⟨p.2.id, p.2.title, p.2.description, p.2.next ++ [e]⟩) else p)

mutual
/-- `walk(n)` of `_children_to_flow`: ensure `n`'s entry, then process its
children in order. -/
def walk : TreeNode → NM → NM
  | .mk i t d l cs, nodes => walkList t cs (ensure_node nodes (.mk i t d l cs))

/-- The `for c in n.get("children", [])` loop of `walk`: per child, ensure the
child's entry, push the edge onto the parent's entry, recurse into the child. -/
def walkList : String → List TreeNode → NM → NM
  | _, [], nodes => nodes
  | pt, c :: rest, nodes =>
      walkList pt rest (walk c (appendEdge (ensure_node nodes c) pt (edgeFor c)))
end

/-- `_children_to_flow(tree)`: run `walk`, then emit the root's entry first
followed by every other entry in insertion order. (`lookupT` cannot miss:
`walk` always ensures the tree's own title; the `none` branch is dead.) -/
def children_to_flow (tree : TreeNode) : List GraphNode :=
  let nodes := walk tree []
  match lookupT nodes tree.title with
  | some root => root :: (nodes.filter (fun p => decide (p.1 ≠ tree.title))).map Prod.snd
  | none => []

-- sanity checks against hand-executions of the Python
example :
    flowRootTitle [⟨none, "A", none, [⟨none, "B"⟩]⟩, ⟨none, "B", none, []⟩] = "A" := by decide

example :
    flowRootTitle [⟨none, "A", none, [⟨none, "B"⟩]⟩, ⟨none, "START", none, []⟩] = "START" := by
  decide

example :
    flowRootTitle [⟨none, "X", none, [⟨none, "X"⟩]⟩] = "X" := by decide

example :
    flow_to_children [⟨some "a", "A", some "dA", [⟨some "l", "B"⟩]⟩,
        ⟨none, "B", none, []⟩] =
      .mk "a" "A" "dA" none [.mk "B" "B" "" (some "l") []] := rfl

-- cycle A -> B -> A: second occurrence of A is a childless leaf
example :
    flow_to_children [⟨some "a", "A", some "", [⟨none, "B"⟩]⟩,
        ⟨some "b", "B", some "", [⟨none, "A"⟩]⟩] =
      .mk "a" "A" "" none [.mk "b" "B" "" none [.mk "a" "A" "" none []]] := rfl

-- dangling reference: stub child
example :
    flow_to_children [⟨some "a", "A", some "", [⟨none, "Z"⟩]⟩] =
      .mk "a" "A" "" none [.mk "missing:Z" "Z" "" none []] := rfl

mutual
/-- `find_node(node, node_id, parent)`: the node itself if its id matches,
otherwise the first hit in a depth-first scan of the children (with the
current node passed as their parent). Returns `none` for Python's `None, None`. -/
def find_node : TreeNode → String → Option TreeNode → Option (TreeNode × Option TreeNode)
  | .mk i t d l cs, nid, parent =>
    if (TreeNode.mk i t d l cs).id = nid then some (.mk i t d l cs, parent)
    else findL cs nid (.mk i t d l cs)

/-- The `for child in node.get("children", [])` loop of `find_node`. -/
def findL : List TreeNode → String → TreeNode → Option (TreeNode × Option TreeNode)
  | [], _, _ => none
  | c :: rest, nid, parent =>
    match find_node c nid (some parent) with
    | some r => some r
    | none => findL rest nid parent
end

mutual
/-- The edit mutation of `api_edit_node`, as a pure function: `find_node`
returns an alias into the tree and the handler assigns
`node["title"]`/`node["description"]` on it when present in the request, so
the tree is rewritten at the first depth-first id match. `none` when no node
matches. -/
def editT (nid : String) (title? desc? : Option String) : TreeNode → Option TreeNode
  | .mk i t d l cs =>
    if i = nid then some (.mk i (title?.getD t) (desc?.getD d) l cs)
    else (editL nid title? desc? cs).map (fun cs' => .mk i t d l cs')

def editL (nid : String) (title? desc? : Option String) : List TreeNode → Option (List TreeNode)
  | [] => none
  | c :: rest =>
    match editT nid title? desc? c with
    | some c' => some (c' :: rest)
    | none => (editL nid title? desc? rest).map (fun rest' => c :: rest')
end

mutual
/-- The delete mutation of `api_delete_node`, as a pure function: `find_node`
locates the first depth-first match and its parent, and the handler replaces
that parent's children by `[c for c in children if c["id"] != node_id]`.
`none` when no node in the strict subtree matches (the root itself is handled
separately by the handler). -/
def delT (nid : String) : TreeNode → Option TreeNode
  | .mk i t d l cs => (delL nid cs).map (fun cs' => .mk i t d l cs')

def delL (nid : String) : List TreeNode → Option (List TreeNode)
  | [] => none
  | c :: rest =>
    if c.id = nid then some (rest.filter (fun x => decide (x.id ≠ nid)))
    else
      match delT nid c with
      | some c' => some (c' :: rest)
      | none => (delL nid rest).map (fun rest' => c :: rest')
end

mutual
/-- The add mutation of `api_add_node`, as a pure function: append `child` to
the children of the first depth-first match of `pid` (the handler's
`parent.setdefault("children", []).append(...)` through the `find_node`
alias). `none` when no node matches. -/
def addT (pid : String) (child : TreeNode) : TreeNode → Option TreeNode
  | .mk i t d l cs =>
    if i = pid then some (.mk i t d l (cs ++ [child]))
    else (addL pid child cs).map (fun cs' => .mk i t d l cs')

def addL (pid : String) (child : TreeNode) : List TreeNode → Option (List TreeNode)
  | [] => none
  | c :: rest =>
    match addT pid child c with
    | some c' => some (c' :: rest)
    | none => (addL pid child rest).map (fun rest' => c :: rest')
end

/-- The durable `tree.json` file: absent, a JSON array (flow form), a JSON
object (nested tree form), or anything else (which `load_tree` rejects with
`ValueError`). -/
inductive StoredFile where
  | absent
  | flowFile (flow : List GraphNode)
  | treeFile (t : TreeNode)
  | otherFile

/-- The seed flow `load_tree` writes when the file is absent:
`[{"id": "root-seed", "title": "START", "description": "Start", "next": []}]`. -/
def seedFlow : List GraphNode := [⟨some "root-seed", "START", some "Start", []⟩]

/-- `load_tree()`: seed an absent file, then return the nested tree (converting
a flow-array file, passing a tree-object file through). The first component is
the file content after the call; `none` models the `ValueError` raised on an
unsupported format. -/
def load_tree : StoredFile → StoredFile × Option TreeNode
  | .absent => (.flowFile seedFlow, some (flow_to_children seedFlow))
  | .flowFile f => (.flowFile f, some (flow_to_children f))
  | .treeFile t => (.treeFile t, some t)
  | .otherFile => (.otherFile, none)

/-- Outcome of a mutation handler: HTTP 200 with the new tree, 404
`node/parent not found`, or 400 `cannot delete root`. -/
inductive ApiOutcome where
  | ok (tree : TreeNode)
  | notFound
  | cannotDeleteRoot

/-- A mutation handler's observable effects: its response, the durable file
contents after the request (the handlers always `save_tree`, i.e. store the
flattened flow), and the `tree_updated` broadcasts emitted. -/
structure HandlerOut where
  outcome : ApiOutcome
  stored : List GraphNode
  broadcasts : List TreeNode

/-- `api_delete_node(node_id)` over a flow-array file: load, find; 404 when
absent, 400 when the match is the root (no parent); otherwise delete, save the
flattened tree and broadcast it. (`delT` cannot return `none` on the success
path; the dead branch mirrors the 404.) -/
def api_delete_node (stored : List GraphNode) (nid : String) : HandlerOut :=
  let tree := flow_to_children stored
  match find_node tree nid none with
  | none => ⟨.notFound, stored, []⟩
  | some (_, none) => ⟨.cannotDeleteRoot, stored, []⟩
  | some (_, some _) =>
    match delT nid tree with
    | some tr => ⟨.ok tr, children_to_flow tr, [tr]⟩
    | none => ⟨.notFound, stored, []⟩

/-- `api_edit_node(node_id)` over a flow-array file: load, find; 404 when
absent; otherwise overwrite the present fields, save and broadcast. -/
def api_edit_node (stored : List GraphNode) (nid : String)
    (title? desc? : Option String) : HandlerOut :=
  let tree := flow_to_children stored
  match editT nid title? desc? tree with
  | none => ⟨.notFound, stored, []⟩
  | some tr => ⟨.ok tr, children_to_flow tr, [tr]⟩

/-- `api_add_node` over a flow-array file: load, find the parent; 404 when
absent; otherwise append the new child (its `edgeLabel` key is always set,
defaulting to `""`), save and broadcast. -/
def api_add_node (stored : List GraphNode) (parentId title desc edgeLabel newId : String) :
    HandlerOut :=
  let tree := flow_to_children stored
  match addT parentId (.mk newId title desc (some edgeLabel) []) tree with
  | none => ⟨.notFound, stored, []⟩
  | some tr => ⟨.ok tr, children_to_flow tr, [tr]⟩

/-! Specification-side vocabulary used to state the claims. -/

mutual
/-- All nodes of a tree in depth-first preorder (the order `walk` first
reaches them). -/
def preNodes : TreeNode → List TreeNode
  | .mk i t d l cs => .mk i t d l cs :: preNodesL cs

def preNodesL : List TreeNode → List TreeNode
  | [] => []
  | c :: rest => preNodes c ++ preNodesL rest
end

/-- All titles of a tree in depth-first preorder. -/
def preTitles (n : TreeNode) : List String := (preNodes n).map TreeNode.title

/-- All ids of a tree in depth-first preorder. -/
def idList (n : TreeNode) : List String := (preNodes n).map TreeNode.id

mutual
/-- The chronological sequence of `(parent title, edge)` pairs `walk` pushes:
for each child in order, its edge, then the pairs of its own subtree. -/
def edgeEmits : TreeNode → List (String × Edge)
  | .mk _ t _ _ cs => emitsL t cs

def emitsL : String → List TreeNode → List (String × Edge)
  | _, [] => []
  | pt, c :: rest => (pt, edgeFor c) :: (edgeEmits c ++ emitsL pt rest)
end

/-- The entry `ensure_node` creates when first seeing a tree node. -/
def baseGN (n : TreeNode) : GraphNode := ⟨some (nidOf n), n.title, some n.description, []⟩

/-- One entry per first-seen title, in first-seen order, skipping titles
already `known`; each entry starts with an empty edge list. -/
def newEnts (known : List String) : List TreeNode → NM
  | [] => []
  | n :: rest =>
    if n.title ∈ known then newEnts known rest
    else (n.title, baseGN n) :: newEnts (n.title :: known) rest

/-- Append to every entry the edges emitted under its key, in emission order. -/
def addEdges (nodes : NM) (ems : List (String × Edge)) : NM :=
  nodes.map (fun p =>
    (p.1, ⟨p.2.id, p.2.title, p.2.description,
           p.2.next ++ (ems.filter (fun q => decide (q.1 = p.1))).map Prod.snd⟩))

mutual
/-- Height of a tree (number of levels). -/
def heightT : TreeNode → Nat
  | .mk _ _ _ _ cs => 1 + heightL cs

def heightL : List TreeNode → Nat
  | [] => 0
  | c :: rest => max (heightT c) (heightL rest)
end

mutual
/-- What a round trip through the flow format makes of a non-root node, for a
tree whose titles are pairwise distinct: the id regenerated from the title
when empty, and the incoming edge label materialized as a present key
defaulting to `""`. -/
def canonicalChild : TreeNode → TreeNode
  | .mk i t d l cs => .mk (if i = "" then t else i) t d (some (l.getD "")) (canonicalL cs)

def canonicalL : List TreeNode → List TreeNode
  | [] => []
  | c :: rest => canonicalChild c :: canonicalL rest
end

/-- What a round trip makes of the root: as `canonicalChild`, but with no
`edgeLabel` key. -/
def canonicalRoot : TreeNode → TreeNode
  | .mk i t d _ cs => .mk (if i = "" then t else i) t d none (canonicalL cs)

mutual
/-- The claim's tree isomorphism: same titles, same descriptions, same child
order and, for each parent/child edge, the same edge label (an absent
`edgeLabel` key denoting the empty label, as everywhere in the source). Ids
are not compared. -/
def isoB : TreeNode → TreeNode → Bool
  | .mk _ t d _ cs, .mk _ t' d' _ cs' =>
    decide (t = t') && decide (d = d') && isoL cs cs'

def isoL : List TreeNode → List TreeNode → Bool
  | [], [] => true
  | c :: cs, c' :: cs' => decide (labelOf c = labelOf c') && isoB c c' && isoL cs cs'
  | _, _ => false
end

/-- Navigate a tree along a list of child indices. -/
def getPath : TreeNode → List Nat → Option TreeNode
  | n, [] => some n
  | n, i :: p =>
    match n.children[i]? with
    | some c => getPath c p
    | none => none

/-- The per-node payload of a tree node: everything except the child subtrees
themselves (their count stands in for them). -/
def nodeData (n : TreeNode) : String × String × String × Option String × Nat :=
  (n.id, n.title, n.description, n.edgeLabel, n.children.length)

mutual
/-- Specification-side delete: at the (unique) node with id `pid`, drop the
children whose id is `nid`; leave every other node untouched. -/
def updAt (nid pid : String) : TreeNode → TreeNode
  | .mk i t d l cs =>
    if i = pid then .mk i t d l (cs.filter (fun c => decide (c.id ≠ nid)))
    else .mk i t d l (updAtL nid pid cs)

def updAtL (nid pid : String) : List TreeNode → List TreeNode
  | [] => []
  | c :: rest => updAt nid pid c :: updAtL nid pid rest
end

/-- Every edge target, including empty-string ones: "the target of any edge in
the list" read literally, as C2 states it. -/
def referencedAll (flow : List GraphNode) : List String :=
  flow.flatMap (fun n => n.next.map Edge.next)

/-- Root inference as C2 states it: `"START"` when a node has exactly that
title; else the first node in input order whose title is the target of no
edge; else the first node. -/
def rootTitleClaimed (flow : List GraphNode) : String :=
  if flow.any (fun n => decide (n.title = "START")) then "START"
  else
    match flow.find? (fun n => decide (¬ n.title ∈ referencedAll flow)) with
    | some n => n.title
    | none =>
      match flow with
      | [] => ""
      | n :: _ => n.title

/-- Root inference as the code implements it, stated over nodes instead of
dict keys: as `rootTitleClaimed` but with edges whose target title is empty
ignored when collecting referenced titles (the code's `if tgt:`). -/
def rootTitleSpec (flow : List GraphNode) : String :=
  if flow.any (fun n => decide (n.title = "START")) then "START"
  else
    match flow.find? (fun n => decide (¬ n.title ∈ referencedOf flow)) with
    | some n => n.title
    | none =>
      match flow with
      | [] => ""
      | n :: _ => n.title

/-- Number of flow titles (with multiplicity) not yet on the current path:
the measure that bounds the recursion depth of `build`. -/
def remTitles (flow : List GraphNode) (seen : List String) : Nat :=
  ((flow.map GraphNode.title).filter (fun t => decide (¬ t ∈ seen))).length

-- mutation sanity checks
example :
    find_node (.mk "a" "A" "" none [.mk "b" "B" "" none []]) "b" none =
      some (.mk "b" "B" "" none [], some (.mk "a" "A" "" none [.mk "b" "B" "" none []])) := rfl

example :
    delT "b" (.mk "a" "A" "" none [.mk "b" "B" "" none [], .mk "c" "C" "" none []]) =
      some (.mk "a" "A" "" none [.mk "c" "C" "" none []]) := rfl

example :
    editT "b" (some "B2") none (.mk "a" "A" "" none [.mk "b" "B" "dB" (some "l") []]) =
      some (.mk "a" "A" "" none [.mk "b" "B2" "dB" (some "l") []]) := rfl

-- TreeToGraph sanity: root first, labels defaulted to "", edges by title
example :
    children_to_flow
        (.mk "a" "A" "dA" none
          [.mk "b" "B" "dB" (some "l1") [], .mk "c" "C" "dC" none []]) =
      [⟨some "a", "A", some "dA", [⟨some "l1", "B"⟩, ⟨some "", "C"⟩]⟩,
       ⟨some "b", "B", some "dB", []⟩,
       ⟨some "c", "C", some "dC", []⟩] := rfl

-- duplicate titles: first-seen id/description win, later occurrences only add edges
example :
    children_to_flow
        (.mk "a" "T" "d1" none
          [.mk "b" "B" "dB" none [.mk "c" "T" "d2" none [.mk "d" "D" "dD" none []]]]) =
      [⟨some "a", "T", some "d1", [⟨some "", "B"⟩, ⟨some "", "D"⟩]⟩,
       ⟨some "b", "B", some "dB", [⟨some "", "T"⟩]⟩,
       ⟨some "d", "D", some "dD", []⟩] := rfl

-- round trip on a small distinct-title tree regenerates ids from titles when empty
example :
    flow_to_children (children_to_flow
        (.mk "a" "A" "dA" none [.mk "" "B" "dB" (some "l") []])) =
      .mk "a" "A" "dA" none [.mk "B" "B" "dB" (some "l") []] := rfl

/-! Basic facts about `byTitle`. -/

theorem byTitle_some_title {flow : List GraphNode} {t : String} {src : GraphNode}
    (h : byTitle flow t = some src) : src.title = t := by
  induction flow with
  | nil => simp [byTitle] at h
  | cons n rest ih =>
    unfold byTitle at h
    cases hr : byTitle rest t with
    | some v => rw [hr] at h; cases h; exact ih hr
    | none =>
      rw [hr] at h
      by_cases hn : n.title = t
      · rw [if_pos hn] at h; cases h; exact hn
      · rw [if_neg hn] at h; cases h

theorem byTitle_some_mem {flow : List GraphNode} {t : String} {src : GraphNode}
    (h : byTitle flow t = some src) : src ∈ flow := by
  induction flow with
  | nil => simp [byTitle] at h
  | cons n rest ih =>
    unfold byTitle at h
    cases hr : byTitle rest t with
    | some v => rw [hr] at h; cases h; exact List.mem_cons_of_mem _ (ih hr)
    | none =>
      rw [hr] at h
      by_cases hn : n.title = t
      · rw [if_pos hn] at h; cases h; exact List.mem_cons_self _ _
      · rw [if_neg hn] at h; cases h

theorem byTitle_mem_titles {flow : List GraphNode} {t : String} {src : GraphNode}
    (h : byTitle flow t = some src) : t ∈ flow.map GraphNode.title := by
  induction flow with
  | nil => simp [byTitle] at h
  | cons n rest ih =>
    unfold byTitle at h
    cases hr : byTitle rest t with
    | some v =>
      rw [hr] at h
      cases h
      exact List.mem_cons_of_mem _ (ih hr)
    | none =>
      rw [hr] at h
      by_cases hn : n.title = t
      · simp only [List.map_cons, List.mem_cons]
        exact Or.inl hn.symm
      · rw [if_neg hn] at h; cases h

theorem byTitle_eq_none_iff {flow : List GraphNode} {t : String} :
    byTitle flow t = none ↔ ¬ t ∈ flow.map GraphNode.title := by
  induction flow with
  | nil => simp [byTitle]
  | cons n rest ih =>
    unfold byTitle
    cases hr : byTitle rest t with
    | some v =>
      constructor
      · intro h; cases h
      · intro h
        exact absurd (List.mem_cons_of_mem _ (byTitle_mem_titles hr)) h
    | none =>
      have hmem : ¬ t ∈ rest.map GraphNode.title := ih.mp hr
      by_cases hn : n.title = t
      · simp [if_pos hn, hn]
      · have hn' : ¬ t = n.title := fun hh => hn hh.symm
        simp [if_neg hn, hmem, hn']

theorem byTitle_some_of_mem {flow : List GraphNode} {t : String}
    (h : t ∈ flow.map GraphNode.title) : ∃ src, byTitle flow t = some src := by
  cases hb : byTitle flow t with
  | some v => exact ⟨v, rfl⟩
  | none => exact absurd h (byTitle_eq_none_iff.mp hb)

/-! Fuel stability: the recursion depth of `build` is bounded by the number of
flow titles not yet on the path, so any fuel beyond that bound gives the same
result — the Python recursion terminates. -/

theorem length_filter_not_mem_cons_lt (l : List String) (a : String) (seen : List String)
    (ha : a ∈ l) (hna : ¬ a ∈ seen) :
    (l.filter (fun t => decide (¬ t ∈ a :: seen))).length <
      (l.filter (fun t => decide (¬ t ∈ seen))).length := by
  induction l with
  | nil => cases ha
  | cons b l ih =>
    have hmono : ∀ m : List String,
        (m.filter (fun t => decide (¬ t ∈ a :: seen))).length ≤
          (m.filter (fun t => decide (¬ t ∈ seen))).length := fun m =>
      (List.monotone_filter_right m (fun x hx => by
        simp only [decide_eq_true_eq, List.mem_cons] at hx ⊢
        exact fun h => hx (Or.inr h))).length_le
    by_cases hb : b = a
    · subst hb
      have h1 : (decide (¬ b ∈ b :: seen)) = false := by simp
      have h2 : (decide (¬ b ∈ seen)) = true := by simpa using hna
      simp only [List.filter_cons, h1, h2, if_false, if_true]
      exact Nat.lt_succ_of_le (hmono l)
    · have ha' : a ∈ l := by
        cases List.mem_cons.mp ha with
        | inl h => exact absurd h.symm hb
        | inr h => exact h
      have hbiff : (b ∈ a :: seen) ↔ b ∈ seen := by
        simp [List.mem_cons, hb]
      by_cases hbs : b ∈ seen
      · have h1 : (decide (¬ b ∈ a :: seen)) = false := by simp [hbiff, hbs]
        have h2 : (decide (¬ b ∈ seen)) = false := by simp [hbs]
        simp only [List.filter_cons, h1, h2, if_false]
        exact ih ha'
      · have h1 : (decide (¬ b ∈ a :: seen)) = true := by simp [hbiff, hbs]
        have h2 : (decide (¬ b ∈ seen)) = true := by simp [hbs]
        simp only [List.filter_cons, h1, h2, if_true]
        exact Nat.succ_lt_succ (ih ha')

theorem remTitles_lt {flow : List GraphNode} {title : String} {seen : List String}
    (h : title ∈ flow.map GraphNode.title) (hn : ¬ title ∈ seen) :
    remTitles flow (title :: seen) < remTitles flow seen :=
  length_filter_not_mem_cons_lt _ _ _ h hn

theorem buildF_fuel_stable (flow : List GraphNode) :
    ∀ fuel fuel' title seen, remTitles flow seen < fuel → remTitles flow seen < fuel' →
      buildF flow fuel title seen = buildF flow fuel' title seen := by
  intro fuel
  induction fuel with
  | zero => intro fuel' title seen h; exact absurd h (Nat.not_lt_zero _)
  | succ f ih =>
    intro fuel' title seen h h'
    cases fuel' with
    | zero => exact absurd h' (Nat.not_lt_zero _)
    | succ f' =>
      simp only [buildF]
      cases hbt : byTitle flow title with
      | none => rfl
      | some src =>
        by_cases hs : title ∈ seen
        · simp [hs]
        · simp only [hs, if_neg, if_false]
          congr 1
          refine List.map_congr_left (fun e _ => ?_)
          congr 1
          have hrem : remTitles flow (title :: seen) < remTitles flow seen :=
            remTitles_lt (byTitle_mem_titles hbt) hs
          exact ih f' e.next (title :: seen) (by omega) (by omega)

/-- Claim C3: for every flat node list, including cyclic ones, `GraphToTree`'s
expansion terminates and yields a finite tree: the result is independent of the
fuel once the fuel exceeds the number of still-unseen flow titles (the model's
rendering of termination of the unbounded Python recursion); a title already on
the current path is emitted as a node with its own id, title and description
but empty children; and the expansion case hands each child recursively
expanded with its own copy of the extended seen set. -/
theorem c3_cycle_termination (flow : List GraphNode) :
    (∀ fuel fuel' title seen, remTitles flow seen < fuel → remTitles flow seen < fuel' →
        buildF flow fuel title seen = buildF flow fuel' title seen) ∧
    (∀ fuel title seen src, byTitle flow title = some src → title ∈ seen →
        buildF flow (fuel + 1) title seen =
          .mk (src.id.getD title) src.title (src.description.getD "") none []) ∧
    (∀ fuel title seen src, byTitle flow title = some src → ¬ title ∈ seen →
        buildF flow (fuel + 1) title seen =
          .mk (src.id.getD title) src.title (src.description.getD "") none
            (src.next.map (fun e => withLabel e (buildF flow fuel e.next (title :: seen))))) := by
  refine ⟨buildF_fuel_stable flow, ?_, ?_⟩
  · intro fuel title seen src h hs
    simp only [buildF, h, if_pos hs]
  · intro fuel title seen src h hs
    simp only [buildF, h, if_neg hs]

/-- Witness for C3 on the one-node self-cycle `X → X`. -/
theorem c3_witness :
    (buildF [⟨some "x", "X", some "", [⟨none, "X"⟩]⟩] 2 "X" [] =
        buildF [⟨some "x", "X", some "", [⟨none, "X"⟩]⟩] 3 "X" []) ∧
    (buildF [⟨some "x", "X", some "", [⟨none, "X"⟩]⟩] 1 "X" ["X"] =
        .mk "x" "X" "" none []) := by
  constructor
  · exact (c3_cycle_termination _).1 2 3 "X" [] (by decide) (by decide)
  · exact (c3_cycle_termination _).2.1 0 "X" ["X"]
      ⟨some "x", "X", some "", [⟨none, "X"⟩]⟩ (by decide) (by decide)

/-- Claim C4: an edge whose target title matches no node expands to the stub
`{"id": "missing:"+title, "title": title, "description": "", "children": []}`,
and the child produced for such a dangling edge is exactly that stub (the
edge's label attached when present); the conversion is total, so it never
fails or raises. -/
theorem c4_dangling_stub :
    (∀ (flow : List GraphNode) (fuel : Nat) (title : String) (seen : List String),
        byTitle flow title = none →
        buildF flow (fuel + 1) title seen = stubNode title) ∧
    (∀ (flow : List GraphNode) (fuel : Nat) (title : String) (seen : List String)
        (src : GraphNode) (i : Nat) (e : Edge),
        byTitle flow title = some src → ¬ title ∈ seen →
        src.next[i]? = some e → byTitle flow e.next = none →
        (buildF flow (fuel + 2) title seen).children[i]? =
          some (withLabel e (stubNode e.next))) := by
  constructor
  · intro flow fuel title seen h
    simp only [buildF, h]
  · intro flow fuel title seen src i e hsrc hseen hi hd
    simp only [buildF, hsrc, if_neg hseen, TreeNode.children]
    rw [List.getElem?_map, hi, Option.map_some']
    simp only [hd]

/-- Witness for C4 on a single node `A` with a labeled edge to the missing
title `Z`. -/
theorem c4_witness :
    (buildF [⟨some "a", "A", some "", [⟨some "l", "Z"⟩]⟩] 1 "Z" [] = stubNode "Z") ∧
    ((buildF [⟨some "a", "A", some "", [⟨some "l", "Z"⟩]⟩] 2 "A" []).children[0]? =
        some (withLabel ⟨some "l", "Z"⟩ (stubNode "Z"))) := by
  constructor
  · exact c4_dangling_stub.1 _ 0 "Z" [] (by decide)
  · exact c4_dangling_stub.2 _ 0 "A" [] ⟨some "a", "A", some "", [⟨some "l", "Z"⟩]⟩ 0
      ⟨some "l", "Z"⟩ (by decide) (by decide) (by decide) (by decide)

/-! Root inference: the dict-key iteration of `_flow_root_title` agrees with a
scan of the node list itself. -/

theorem mem_dedupFO {x : String} : ∀ {l : List String}, x ∈ dedupFO l ↔ x ∈ l := by
  intro l
  induction l with
  | nil => simp [dedupFO]
  | cons a l ih =>
    simp only [dedupFO, List.mem_cons, List.mem_filter, decide_eq_true_eq, ih]
    by_cases hx : x = a
    · simp [hx]
    · simp [hx]

theorem find?_filter_ne {p : String → Bool} {a : String} (hp : p a = false) :
    ∀ {l : List String}, (l.filter (fun x => decide (x ≠ a))).find? p = l.find? p := by
  intro l
  induction l with
  | nil => simp
  | cons b l ih =>
    by_cases hb : b = a
    · subst hb
      have h1 : (decide (b ≠ b)) = false := by simp
      have hnb : ¬ p b = true := by simp [hp]
      simp only [List.filter_cons, h1]
      rw [if_neg Bool.false_ne_true, ih, List.find?_cons_of_neg _ hnb]
    · have h1 : (decide (b ≠ a)) = true := by simp [hb]
      simp only [List.filter_cons, h1]
      rw [if_pos trivial]
      cases hpb : p b with
      | true => rw [List.find?_cons_of_pos _ hpb, List.find?_cons_of_pos _ hpb]
      | false =>
        have hnb : ¬ p b = true := by simp [hpb]
        rw [List.find?_cons_of_neg _ hnb, List.find?_cons_of_neg _ hnb, ih]

theorem find?_dedupFO {p : String → Bool} :
    ∀ {l : List String}, (dedupFO l).find? p = l.find? p := by
  intro l
  induction l with
  | nil => rfl
  | cons a l ih =>
    rw [show dedupFO (a :: l) = a :: (dedupFO l).filter (fun x => decide (x ≠ a)) from rfl]
    cases hpa : p a with
    | true => rw [List.find?_cons_of_pos _ hpa, List.find?_cons_of_pos _ hpa]
    | false =>
      have hna : ¬ p a = true := by simp [hpa]
      rw [List.find?_cons_of_neg _ hna, List.find?_cons_of_neg _ hna,
        find?_filter_ne hpa, ih]

/-- The counterexample input for C2: the cycle `X → "" → X` through a node
whose title is the empty string. -/
theorem c2_counterexample :
    flowRootTitle [⟨none, "X", none, [⟨none, ""⟩]⟩, ⟨none, "", none, [⟨none, "X"⟩]⟩] = "" ∧
    rootTitleClaimed [⟨none, "X", none, [⟨none, ""⟩]⟩, ⟨none, "", none, [⟨none, "X"⟩]⟩] = "X" ∧
    ("" : String) ≠ "X" := by
  decide

/-- Claim C2 (amended): root inference is total and returns `"START"` when some
node has exactly that title; otherwise the title of the first node in input
order whose title is not the non-empty target of any edge (edges with an
empty-string target are disregarded when collecting referenced titles, per the
code's truthiness test `if tgt:`); otherwise the first node's title. -/
theorem c2_root_inference (flow : List GraphNode) (_h : flow ≠ []) :
    flowRootTitle flow = rootTitleSpec flow := by
  have hstart : ("START" ∈ dedupFO (flow.map GraphNode.title)) ↔
      (flow.any (fun n => decide (n.title = "START")) = true) := by
    rw [mem_dedupFO]
    simp only [List.mem_map, List.any_eq_true, decide_eq_true_eq]
  unfold flowRootTitle rootTitleSpec
  by_cases hs : flow.any (fun n => decide (n.title = "START")) = true
  · rw [if_pos (hstart.mpr hs), if_pos hs]
  · rw [if_neg (fun hc => hs (hstart.mp hc)), if_neg hs]
    rw [find?_dedupFO,
      show (flow.map GraphNode.title).find? (fun t => decide (¬ t ∈ referencedOf flow)) =
        ((flow.find? ((fun t => decide (¬ t ∈ referencedOf flow)) ∘ GraphNode.title)).map
          GraphNode.title) from List.find?_map _ _]
    cases hf : flow.find? (fun n => decide (¬ n.title ∈ referencedOf flow)) with
    | some n =>
      rw [show flow.find? ((fun t => decide (¬ t ∈ referencedOf flow)) ∘ GraphNode.title) =
        some n from hf, Option.map_some']
    | none =>
      rw [show flow.find? ((fun t => decide (¬ t ∈ referencedOf flow)) ∘ GraphNode.title) =
        none from hf, Option.map_none']

/-- Witness for C2 on a two-node flow without `"START"`. -/
theorem c2_witness :
    flowRootTitle [⟨none, "A", none, [⟨none, "B"⟩]⟩, ⟨none, "B", none, []⟩] =
      rootTitleSpec [⟨none, "A", none, [⟨none, "B"⟩]⟩, ⟨none, "B", none, []⟩] :=
  c2_root_inference _ (by decide)

/-- The counterexample input for C9: loading with the durable file absent. The
seeded flow's single node is titled `"START"` with no edges, but its
description is `"Start"`, not empty. -/
theorem c9_counterexample :
    ¬ ∃ n : GraphNode, (load_tree .absent).1 = .flowFile [n] ∧
        n.title = "START" ∧ n.description.getD "" = "" ∧ n.next = [] := by
  rintro ⟨n, h1, -, h3, -⟩
  have hseed : StoredFile.flowFile seedFlow = .flowFile [n] := h1
  have : seedFlow = [n] := by injection hseed
  have : n = ⟨some "root-seed", "START", some "Start", []⟩ := by
    have := this.symm
    simpa [seedFlow] using this
  rw [this] at h3
  simp at h3

/-- Claim C9 (amended): when the durable state file is absent, loading seeds it
with a flow list containing exactly one node, id `"root-seed"`, titled
`"START"`, with description `"Start"` and no edges; the tree returned by that
load is the corresponding single-node tree. -/
theorem c9_seed_on_absent :
    (load_tree .absent).1 = .flowFile [⟨some "root-seed", "START", some "Start", []⟩] ∧
    (load_tree .absent).2 = some (.mk "root-seed" "START" "Start" none []) :=
  ⟨rfl, rfl⟩

/-! The three searching mutations fail (return `none`) exactly when the
requested id occurs nowhere in the tree, i.e. exactly when `find_node` fails. -/

mutual
theorem find_node_eq_none_iff : ∀ (n : TreeNode) (nid : String) (par : Option TreeNode),
    find_node n nid par = none ↔ ¬ nid ∈ idList n
  | .mk i t d l cs, nid, par => by
    simp only [find_node, idList, preNodes, List.map_cons, TreeNode.id, List.mem_cons]
    by_cases hi : i = nid
    · simp [hi]
    · have hi' : ¬ nid = i := fun hh => hi hh.symm
      simp only [if_neg hi, hi', false_or]
      exact findL_eq_none_iff cs nid (.mk i t d l cs)

theorem findL_eq_none_iff : ∀ (cs : List TreeNode) (nid : String) (par : TreeNode),
    findL cs nid par = none ↔ ¬ nid ∈ (preNodesL cs).map TreeNode.id
  | [], nid, par => by simp [findL, preNodesL]
  | c :: rest, nid, par => by
    simp only [findL, preNodesL, List.map_append, List.mem_append]
    cases hf : find_node c nid (some par) with
    | some r =>
      have hmem : nid ∈ idList c := by
        by_contra hc
        rw [← find_node_eq_none_iff c nid (some par)] at hc
        rw [hf] at hc; cases hc
      constructor
      · intro h; cases h
      · intro h; exact absurd (Or.inl hmem) h
    | none =>
      have hnc : ¬ nid ∈ idList c := (find_node_eq_none_iff c nid (some par)).mp hf
      rw [findL_eq_none_iff rest nid par]
      constructor
      · intro h hm
        cases hm with
        | inl hm => exact hnc hm
        | inr hm => exact h hm
      · intro h hm; exact h (Or.inr hm)
end

mutual
theorem editT_eq_none_iff : ∀ (n : TreeNode) (nid : String) (t? d? : Option String),
    editT nid t? d? n = none ↔ ¬ nid ∈ idList n
  | .mk i t d l cs, nid, t?, d? => by
    simp only [editT, idList, preNodes, List.map_cons, TreeNode.id, List.mem_cons]
    by_cases hi : i = nid
    · simp [hi]
    · have hi' : ¬ nid = i := fun hh => hi hh.symm
      simp only [if_neg hi, hi', false_or, Option.map_eq_none']
      exact editL_eq_none_iff cs nid t? d?

theorem editL_eq_none_iff : ∀ (cs : List TreeNode) (nid : String) (t? d? : Option String),
    editL nid t? d? cs = none ↔ ¬ nid ∈ (preNodesL cs).map TreeNode.id
  | [], nid, t?, d? => by simp [editL, preNodesL]
  | c :: rest, nid, t?, d? => by
    simp only [editL, preNodesL, List.map_append, List.mem_append]
    cases hf : editT nid t? d? c with
    | some r =>
      have hmem : nid ∈ idList c := by
        by_contra hc
        rw [← editT_eq_none_iff c nid t? d?] at hc
        rw [hf] at hc; cases hc
      constructor
      · intro h; cases h
      · intro h; exact absurd (Or.inl hmem) h
    | none =>
      have hnc : ¬ nid ∈ idList c := (editT_eq_none_iff c nid t? d?).mp hf
      simp only [Option.map_eq_none']
      rw [editL_eq_none_iff rest nid t? d?]
      constructor
      · intro h hm
        cases hm with
        | inl hm => exact hnc hm
        | inr hm => exact h hm
      · intro h hm; exact h (Or.inr hm)
end

mutual
theorem addT_eq_none_iff : ∀ (n : TreeNode) (pid : String) (child : TreeNode),
    addT pid child n = none ↔ ¬ pid ∈ idList n
  | .mk i t d l cs, pid, child => by
    simp only [addT, idList, preNodes, List.map_cons, TreeNode.id, List.mem_cons]
    by_cases hi : i = pid
    · simp [hi]
    · have hi' : ¬ pid = i := fun hh => hi hh.symm
      simp only [if_neg hi, hi', false_or, Option.map_eq_none']
      exact addL_eq_none_iff cs pid child

theorem addL_eq_none_iff : ∀ (cs : List TreeNode) (pid : String) (child : TreeNode),
    addL pid child cs = none ↔ ¬ pid ∈ (preNodesL cs).map TreeNode.id
  | [], pid, child => by simp [addL, preNodesL]
  | c :: rest, pid, child => by
    simp only [addL, preNodesL, List.map_append, List.mem_append]
    cases hf : addT pid child c with
    | some r =>
      have hmem : pid ∈ idList c := by
        by_contra hc
        rw [← addT_eq_none_iff c pid child] at hc
        rw [hf] at hc; cases hc
      constructor
      · intro h; cases h
      · intro h; exact absurd (Or.inl hmem) h
    | none =>
      have hnc : ¬ pid ∈ idList c := (addT_eq_none_iff c pid child).mp hf
      simp only [Option.map_eq_none']
      rw [addL_eq_none_iff rest pid child]
      constructor
      · intro h hm
        cases hm with
        | inl hm => exact hnc hm
        | inr hm => exact h hm
      · intro h hm; exact h (Or.inr hm)
end

/-- Claim C6: deleting the node found with no parent (the root) returns the
`CannotDeleteRoot` error and leaves the durable state exactly as it was, with
no broadcast; and every `NotFound` failure of delete, edit or add likewise
leaves the stored flow untouched and broadcasts nothing. -/
theorem c6_failures_leave_state (stored : List GraphNode) (nid pid t d el newid : String)
    (t? d? : Option String) :
    (∀ n, find_node (flow_to_children stored) nid none = some (n, none) →
        api_delete_node stored nid = ⟨.cannotDeleteRoot, stored, []⟩) ∧
    (find_node (flow_to_children stored) nid none = none →
        api_delete_node stored nid = ⟨.notFound, stored, []⟩) ∧
    (find_node (flow_to_children stored) nid none = none →
        api_edit_node stored nid t? d? = ⟨.notFound, stored, []⟩) ∧
    (find_node (flow_to_children stored) pid none = none →
        api_add_node stored pid t d el newid = ⟨.notFound, stored, []⟩) := by
  refine ⟨?_, ?_, ?_, ?_⟩
  · intro n h
    simp only [api_delete_node, h]
  · intro h
    simp only [api_delete_node, h]
  · intro h
    have he : editT nid t? d? (flow_to_children stored) = none :=
      (editT_eq_none_iff _ _ _ _).mpr ((find_node_eq_none_iff _ _ _).mp h)
    simp only [api_edit_node, he]
  · intro h
    have ha : addT pid (.mk newid t d (some el) []) (flow_to_children stored) = none :=
      (addT_eq_none_iff _ _ _).mpr ((find_node_eq_none_iff _ _ _).mp h)
    simp only [api_add_node, ha]

/-- Witness for C6: deleting the root id `"r"` of a one-node stored flow is
rejected without touching the file, and a missing id `"z"` 404s all three
mutations without touching the file. -/
theorem c6_witness :
    api_delete_node [⟨some "r", "A", some "", []⟩] "r" =
      ⟨.cannotDeleteRoot, [⟨some "r", "A", some "", []⟩], []⟩ ∧
    api_delete_node [⟨some "r", "A", some "", []⟩] "z" =
      ⟨.notFound, [⟨some "r", "A", some "", []⟩], []⟩ ∧
    api_edit_node [⟨some "r", "A", some "", []⟩] "z" (some "T") none =
      ⟨.notFound, [⟨some "r", "A", some "", []⟩], []⟩ ∧
    api_add_node [⟨some "r", "A", some "", []⟩] "z" "T" "D" "L" "n1" =
      ⟨.notFound, [⟨some "r", "A", some "", []⟩], []⟩ := by
  have h := c6_failures_leave_state [⟨some "r", "A", some "", []⟩] "z" "z" "T" "D" "L" "n1"
    (some "T") none
  refine ⟨?_, h.2.1 rfl, h.2.2.1 rfl, h.2.2.2 rfl⟩
  exact (c6_failures_leave_state [⟨some "r", "A", some "", []⟩] "r" "r" "T" "D" "L" "n1"
    (some "T") none).1 (.mk "r" "A" "" none []) rfl

/-! Algebra of the `nodes` dict operations of `_children_to_flow`. -/

theorem keys_appendEdge (nodes : NM) (t : String) (e : Edge) :
    (appendEdge nodes t e).map Prod.fst = nodes.map Prod.fst := by
  simp only [appendEdge, List.map_map]
  refine List.map_congr_left (fun p _ => ?_)
  by_cases hp : p.1 = t <;> simp [hp]

theorem keys_addEdges (nodes : NM) (ems : List (String × Edge)) :
    (addEdges nodes ems).map Prod.fst = nodes.map Prod.fst := by
  simp only [addEdges, List.map_map]
  exact List.map_congr_left (fun p _ => rfl)

theorem lookupT_isSome_iff (nodes : NM) (t : String) :
    (lookupT nodes t).isSome = true ↔ t ∈ nodes.map Prod.fst := by
  induction nodes with
  | nil => simp [lookupT]
  | cons p rest ih =>
    simp only [lookupT, List.map_cons, List.mem_cons]
    by_cases hp : p.1 = t
    · simp [hp]
    · have hp' : ¬ t = p.1 := fun hh => hp hh.symm
      simp [hp, hp', ih]

theorem addEdges_nil (ns : NM) : addEdges ns [] = ns := by
  simp only [addEdges, List.filter_nil, List.map_nil, List.append_nil]
  exact (List.map_congr_left (fun p _ => rfl)).trans (List.map_id ns)

theorem addEdges_append_entries (a b : NM) (ems : List (String × Edge)) :
    addEdges (a ++ b) ems = addEdges a ems ++ addEdges b ems := by
  simp only [addEdges, List.map_append]

theorem addEdges_addEdges (ns : NM) (e1 e2 : List (String × Edge)) :
    addEdges (addEdges ns e1) e2 = addEdges ns (e1 ++ e2) := by
  simp only [addEdges, List.map_map]
  refine List.map_congr_left (fun p _ => ?_)
  simp [List.filter_append, List.append_assoc]

theorem appendEdge_eq_addEdges (ns : NM) (t : String) (e : Edge) :
    appendEdge ns t e = addEdges ns [(t, e)] := by
  simp only [appendEdge, addEdges]
  refine List.map_congr_left (fun p _ => ?_)
  by_cases hp : p.1 = t
  · rw [if_pos hp]
    have hp' : t = p.1 := hp.symm
    simp [List.filter_cons, hp']
  · rw [if_neg hp]
    have hp' : ¬ t = p.1 := fun hh => hp hh.symm
    simp [List.filter_cons, hp']

theorem addEdges_of_disjoint {ns : NM} {ems : List (String × Edge)}
    (h : ∀ q ∈ ems, ¬ q.1 ∈ ns.map Prod.fst) : addEdges ns ems = ns := by
  simp only [addEdges]
  refine (List.map_congr_left (fun p hp => ?_)).trans (List.map_id ns)
  have hf : ems.filter (fun q => decide (q.1 = p.1)) = [] := by
    refine List.filter_eq_nil_iff.mpr (fun q hq => ?_)
    simp only [decide_eq_true_eq]
    intro heq
    exact h q hq (heq ▸ List.mem_map.mpr ⟨p, hp, rfl⟩)
  simp [hf]

theorem newEnts_congr : ∀ (P : List TreeNode) (k1 k2 : List String),
    (∀ x, x ∈ k1 ↔ x ∈ k2) → newEnts k1 P = newEnts k2 P
  | [], _, _, _ => rfl
  | n :: P, k1, k2, h => by
    simp only [newEnts]
    by_cases hm : n.title ∈ k1
    · rw [if_pos hm, if_pos ((h _).mp hm)]
      exact newEnts_congr P k1 k2 h
    · rw [if_neg hm, if_neg (fun hc => hm ((h _).mpr hc))]
      congr 1
      exact newEnts_congr P (n.title :: k1) (n.title :: k2)
        (fun x => by simp [List.mem_cons, h x])

theorem mem_keys_newEnts_not_mem : ∀ (P : List TreeNode) (known : List String) (x : String),
    x ∈ (newEnts known P).map Prod.fst → ¬ x ∈ known
  | [], known, x => by simp [newEnts]
  | n :: P, known, x => by
    simp only [newEnts]
    by_cases hm : n.title ∈ known
    · rw [if_pos hm]
      exact mem_keys_newEnts_not_mem P known x
    · rw [if_neg hm]
      simp only [List.map_cons, List.mem_cons]
      rintro (rfl | hx)
      · exact hm
      · intro hk
        exact mem_keys_newEnts_not_mem P (n.title :: known) x hx (List.mem_cons_of_mem _ hk)

theorem title_mem_known_or_newEnts : ∀ (P : List TreeNode) (known : List String) (T : String),
    T ∈ P.map TreeNode.title → T ∈ known ∨ T ∈ (newEnts known P).map Prod.fst
  | [], _, _ => by simp
  | n :: P, known, T => by
    simp only [List.map_cons, List.mem_cons, newEnts]
    intro hT
    by_cases hm : n.title ∈ known
    · rw [if_pos hm]
      cases hT with
      | inl h => exact Or.inl (h ▸ hm)
      | inr h => exact title_mem_known_or_newEnts P known T h
    · rw [if_neg hm]
      simp only [List.map_cons, List.mem_cons]
      cases hT with
      | inl h => exact Or.inr (Or.inl h)
      | inr h =>
        cases title_mem_known_or_newEnts P (n.title :: known) T h with
        | inl hk =>
          cases List.mem_cons.mp hk with
          | inl he => exact Or.inr (Or.inl he)
          | inr he => exact Or.inl he
        | inr hk => exact Or.inr (Or.inr hk)

theorem newEnts_append : ∀ (P Q : List TreeNode) (known : List String),
    newEnts known (P ++ Q) =
      newEnts known P ++ newEnts ((newEnts known P).map Prod.fst ++ known) Q
  | [], Q, known => by simp [newEnts]
  | n :: P, Q, known => by
    by_cases hm : n.title ∈ known
    · rw [show (n :: P) ++ Q = n :: (P ++ Q) from rfl]
      rw [show newEnts known (n :: (P ++ Q)) = newEnts known (P ++ Q) from by
        simp only [newEnts]; rw [if_pos hm]]
      rw [show newEnts known (n :: P) = newEnts known P from by
        simp only [newEnts]; rw [if_pos hm]]
      exact newEnts_append P Q known
    · rw [show (n :: P) ++ Q = n :: (P ++ Q) from rfl]
      rw [show newEnts known (n :: (P ++ Q)) =
          (n.title, baseGN n) :: newEnts (n.title :: known) (P ++ Q) from by
        simp only [newEnts]; rw [if_neg hm]]
      rw [show newEnts known (n :: P) =
          (n.title, baseGN n) :: newEnts (n.title :: known) P from by
        simp only [newEnts]; rw [if_neg hm]]
      rw [newEnts_append P Q (n.title :: known)]
      have hB : newEnts ((newEnts (n.title :: known) P).map Prod.fst ++ (n.title :: known)) Q =
          newEnts (((n.title, baseGN n) :: newEnts (n.title :: known) P).map Prod.fst ++ known)
            Q := by
        apply newEnts_congr
        intro x
        simp only [List.map_cons, List.mem_append, List.mem_cons]
        tauto
      rw [hB, List.cons_append]
theorem preNodes_eq (n : TreeNode) : preNodes n = n :: preNodesL n.children := by
  cases n
  rfl

theorem edgeEmits_eq (n : TreeNode) : edgeEmits n = emitsL n.title n.children := by
  cases n
  rfl

mutual
theorem edgeEmits_key_mem : ∀ (n : TreeNode) (q : String × Edge),
    q ∈ edgeEmits n → q.1 ∈ (preNodes n).map TreeNode.title
  | .mk i t d l cs, q => by
    intro h
    rw [show edgeEmits (.mk i t d l cs) = emitsL t cs from rfl] at h
    simp only [preNodes, List.map_cons, List.mem_cons, TreeNode.title]
    cases emitsL_key_mem t cs q h with
    | inl he => exact Or.inl he
    | inr he => exact Or.inr he

theorem emitsL_key_mem : ∀ (pt : String) (cs : List TreeNode) (q : String × Edge),
    q ∈ emitsL pt cs → q.1 = pt ∨ q.1 ∈ (preNodesL cs).map TreeNode.title
  | pt, [], q => by simp [emitsL]
  | pt, c :: rest, q => by
    simp only [emitsL, List.mem_cons, List.mem_append]
    rintro (rfl | h | h)
    · exact Or.inl rfl
    · right
      simp only [preNodesL, List.map_append, List.mem_append]
      exact Or.inl (edgeEmits_key_mem c q h)
    · cases emitsL_key_mem pt rest q h with
      | inl h => exact Or.inl h
      | inr h =>
        right
        simp only [preNodesL, List.map_append, List.mem_append]
        exact Or.inr h
end

mutual
/-- The full effect of `walk`: first-seen entries are appended in preorder and
every entry ends up carrying, after whatever edges it already had, exactly the
edges emitted under its key, in emission order. -/
theorem walk_spec : ∀ (n : TreeNode) (nodes : NM),
    walk n nodes =
      addEdges (nodes ++ newEnts (nodes.map Prod.fst) (preNodes n)) (edgeEmits n)
  | .mk i t d l cs, nodes => by
    rw [show walk (.mk i t d l cs) nodes =
      walkList t cs (ensure_node nodes (.mk i t d l cs)) from rfl]
    rw [show edgeEmits (.mk i t d l cs) = emitsL t cs from rfl]
    by_cases hm : t ∈ nodes.map Prod.fst
    · have hens : ensure_node nodes (.mk i t d l cs) = nodes := by
        simp only [ensure_node, TreeNode.title]
        rw [if_pos ((lookupT_isSome_iff nodes t).mpr hm)]
      rw [hens, walkList_spec t cs nodes hm]
      rw [show newEnts (nodes.map Prod.fst) (preNodes (.mk i t d l cs)) =
          newEnts (nodes.map Prod.fst) (preNodesL cs) from by
        simp only [preNodes, newEnts, TreeNode.title]
        rw [if_pos hm]]
    · have hens : ensure_node nodes (.mk i t d l cs) =
          nodes ++ [(t, baseGN (.mk i t d l cs))] := by
        simp only [ensure_node, TreeNode.title]
        rw [if_neg (fun hc => hm ((lookupT_isSome_iff nodes t).mp hc))]
        rfl
      have hpt : t ∈ (nodes ++ [(t, baseGN (.mk i t d l cs))]).map Prod.fst := by
        simp [List.map_append]
      rw [hens, walkList_spec t cs _ hpt]
      rw [show newEnts (nodes.map Prod.fst) (preNodes (.mk i t d l cs)) =
          (t, baseGN (.mk i t d l cs)) ::
            newEnts (t :: nodes.map Prod.fst) (preNodesL cs) from by
        simp only [preNodes, newEnts, TreeNode.title]
        rw [if_neg hm]]
      rw [show (nodes ++ [(t, baseGN (.mk i t d l cs))]).map Prod.fst =
          nodes.map Prod.fst ++ [t] from by simp [List.map_append]]
      rw [newEnts_congr (preNodesL cs) (nodes.map Prod.fst ++ [t]) (t :: nodes.map Prod.fst)
        (fun x => by
          simp only [List.mem_append, List.mem_cons, List.mem_singleton]
          tauto)]
      rw [List.append_assoc, List.singleton_append]

theorem walkList_spec : ∀ (pt : String) (cs : List TreeNode) (nodes : NM),
    pt ∈ nodes.map Prod.fst →
    walkList pt cs nodes =
      addEdges (nodes ++ newEnts (nodes.map Prod.fst) (preNodesL cs)) (emitsL pt cs)
  | pt, [], nodes, hpt => by
    rw [show walkList pt [] nodes = nodes from rfl]
    rw [show preNodesL [] = ([] : List TreeNode) from rfl,
      show emitsL pt [] = ([] : List (String × Edge)) from rfl,
      show newEnts (nodes.map Prod.fst) [] = ([] : NM) from rfl,
      List.append_nil, addEdges_nil]
  | pt, c :: rest, nodes, hpt => by
    rw [show walkList pt (c :: rest) nodes =
      walkList pt rest (walk c (appendEdge (ensure_node nodes c) pt (edgeFor c))) from rfl]
    -- notation
    set K := nodes.map Prod.fst with hK
    set N1 := ensure_node nodes c with hN1
    set N2 := appendEdge N1 pt (edgeFor c) with hN2
    have hkeysN1 : ∀ x ∈ K, x ∈ N1.map Prod.fst := by
      intro x hx
      rw [hN1]
      simp only [ensure_node]
      by_cases hc : (lookupT nodes c.title).isSome = true
      · rw [if_pos hc]; exact hx
      · rw [if_neg hc]
        simp only [List.map_append, List.mem_append]
        exact Or.inl hx
    have hkeysN2 : N2.map Prod.fst = N1.map Prod.fst := keys_appendEdge _ _ _
    -- expand the walk of the child
    rw [walk_spec c N2, hkeysN2]
    set E := newEnts (N1.map Prod.fst) (preNodes c) with hE
    -- keys after the child's walk
    have hkeys3 : (addEdges (N2 ++ E) (edgeEmits c)).map Prod.fst =
        N1.map Prod.fst ++ E.map Prod.fst := by
      rw [keys_addEdges, List.map_append, hkeysN2]
    have hpt3 : pt ∈ (addEdges (N2 ++ E) (edgeEmits c)).map Prod.fst := by
      rw [hkeys3]
      exact List.mem_append.mpr (Or.inl (hkeysN1 pt hpt))
    rw [walkList_spec pt rest _ hpt3, hkeys3]
    set R := newEnts (N1.map Prod.fst ++ E.map Prod.fst) (preNodesL rest) with hR
    -- freshness facts
    have hfreshE : ∀ x ∈ E.map Prod.fst, ¬ x ∈ N1.map Prod.fst := by
      intro x hx
      rw [hE] at hx
      exact mem_keys_newEnts_not_mem _ _ _ hx
    have hfreshR : ∀ x ∈ R.map Prod.fst, ¬ x ∈ N1.map Prod.fst ++ E.map Prod.fst := by
      intro x hx
      exact mem_keys_newEnts_not_mem _ _ _ hx
    have hemc : ∀ q ∈ edgeEmits c, q.1 ∈ N1.map Prod.fst ∨ q.1 ∈ E.map Prod.fst := by
      intro q hq
      have hkey := edgeEmits_key_mem c q hq
      have := title_mem_known_or_newEnts (preNodes c) (N1.map Prod.fst) q.1 hkey
      rw [← hE] at this
      exact this
    -- move R under the same addEdges
    have hA : addEdges R (emitsL pt rest) = addEdges R (edgeEmits c ++ emitsL pt rest) := by
      conv_rhs => rw [← addEdges_addEdges]
      congr 1
      refine (addEdges_of_disjoint (fun q hq hmem => ?_)).symm
      cases hemc q hq with
      | inl h => exact hfreshR _ hmem (List.mem_append.mpr (Or.inl h))
      | inr h => exact hfreshR _ hmem (List.mem_append.mpr (Or.inr h))
    rw [addEdges_append_entries, addEdges_addEdges, hA, ← addEdges_append_entries,
      List.append_assoc]
    -- now: addEdges (N2 ++ (E ++ R)) (edgeEmits c ++ emitsL pt rest)
    -- pull the parent edge out of N2
    rw [show N2 = addEdges N1 [(pt, edgeFor c)] from appendEdge_eq_addEdges _ _ _]
    have hB : addEdges (E ++ R) (edgeEmits c ++ emitsL pt rest) =
        addEdges (E ++ R) ([(pt, edgeFor c)] ++ (edgeEmits c ++ emitsL pt rest)) := by
      conv_rhs => rw [← addEdges_addEdges]
      congr 1
      refine (addEdges_of_disjoint (fun q hq hmem => ?_)).symm
      simp only [List.mem_singleton] at hq
      subst hq
      simp only [List.map_append, List.mem_append] at hmem
      cases hmem with
      | inl h => exact hfreshE _ h (hkeysN1 pt hpt)
      | inr h => exact hfreshR _ h (List.mem_append.mpr (Or.inl (hkeysN1 pt hpt)))
    rw [addEdges_append_entries, addEdges_addEdges, hB, ← addEdges_append_entries]
    rw [show [(pt, edgeFor c)] ++ (edgeEmits c ++ emitsL pt rest) =
      emitsL pt (c :: rest) from rfl]
    -- finally align the entry lists
    refine congrArg (fun z => addEdges z (emitsL pt (c :: rest))) ?_
    rw [show preNodesL (c :: rest) = preNodes c ++ preNodesL rest from rfl]
    rw [newEnts_append]
    by_cases hc : c.title ∈ K
    · have hensm : N1 = nodes := by
        rw [hN1]
        simp only [ensure_node]
        rw [if_pos ((lookupT_isSome_iff nodes c.title).mpr hc)]
      rw [hR, hE, hensm]
      have hRc : newEnts (nodes.map Prod.fst ++
            (newEnts (nodes.map Prod.fst) (preNodes c)).map Prod.fst) (preNodesL rest) =
          newEnts ((newEnts (nodes.map Prod.fst) (preNodes c)).map Prod.fst ++
            nodes.map Prod.fst) (preNodesL rest) :=
        newEnts_congr _ _ _ (fun x => by
          simp only [List.mem_append]
          tauto)
      rw [hRc]
    · have hensm : N1 = nodes ++ [(c.title, baseGN c)] := by
        rw [hN1]
        simp only [ensure_node]
        rw [if_neg (fun hx => hc ((lookupT_isSome_iff nodes c.title).mp hx))]
        rfl
      rw [hR, hE, hensm]
      have hk1 : (nodes ++ [(c.title, baseGN c)]).map Prod.fst =
          nodes.map Prod.fst ++ [c.title] := by
        simp [List.map_append]
      rw [hk1]
      have hE2 : newEnts (nodes.map Prod.fst ++ [c.title]) (preNodes c) =
          newEnts (c.title :: nodes.map Prod.fst) (preNodes c) :=
        newEnts_congr _ _ _ (fun x => by
          simp only [List.mem_append, List.mem_cons, List.mem_singleton]
          tauto)
      rw [hE2]
      have hskipE : newEnts (c.title :: nodes.map Prod.fst) (preNodes c) =
          newEnts (c.title :: nodes.map Prod.fst) (preNodesL c.children) := by
        rw [preNodes_eq c]
        simp only [newEnts]
        rw [if_pos (List.mem_cons_self _ _)]
      have hheadR : newEnts (nodes.map Prod.fst) (preNodes c) =
          (c.title, baseGN c) ::
            newEnts (c.title :: nodes.map Prod.fst) (preNodesL c.children) := by
        rw [preNodes_eq c]
        simp only [newEnts]
        rw [if_neg hc]
      rw [hskipE, hheadR]
      have hRcongr : newEnts ((nodes.map Prod.fst ++ [c.title]) ++
            (newEnts (c.title :: nodes.map Prod.fst) (preNodesL c.children)).map Prod.fst)
            (preNodesL rest) =
          newEnts ((((c.title, baseGN c) ::
              newEnts (c.title :: nodes.map Prod.fst) (preNodesL c.children)).map Prod.fst) ++
            nodes.map Prod.fst) (preNodesL rest) :=
        newEnts_congr _ _ _ (fun x => by
          simp only [List.map_cons, List.mem_append, List.mem_cons, List.mem_singleton]
          tauto)
      rw [hRcongr]
      rw [List.append_assoc, List.singleton_append, List.cons_append]
end

theorem filter_ne_key_cons (t : String) (g : GraphNode) (rest : NM) :
    ((t, g) :: rest).filter (fun p => decide (p.1 ≠ t)) =
      rest.filter (fun p => decide (p.1 ≠ t)) := by
  rw [List.filter_cons]
  rw [show (decide (((t, g) : String × GraphNode).1 ≠ t)) = false from by simp]
  rw [if_neg Bool.false_ne_true]

/-- The closed form of `_children_to_flow`: one entry per first-seen title in
preorder, each carrying the edges emitted under its title. -/
theorem children_to_flow_eq (tr : TreeNode) :
    children_to_flow tr =
      (addEdges (newEnts [] (preNodes tr)) (edgeEmits tr)).map Prod.snd := by
  have hw : walk tr [] = addEdges (newEnts [] (preNodes tr)) (edgeEmits tr) := by
    rw [walk_spec tr []]
    rfl
  have hsplit : newEnts ([] : List String) (preNodes tr) =
      (tr.title, baseGN tr) :: newEnts [tr.title] (preNodesL tr.children) := by
    rw [preNodes_eq tr]
    simp only [newEnts]
    rw [if_neg (List.not_mem_nil _)]
  simp only [children_to_flow]
  rw [hw, hsplit]
  rw [show addEdges ((tr.title, baseGN tr) :: newEnts [tr.title] (preNodesL tr.children))
      (edgeEmits tr) =
      (tr.title, ⟨(baseGN tr).id, (baseGN tr).title, (baseGN tr).description,
        (baseGN tr).next ++ ((edgeEmits tr).filter
          (fun q => decide (q.1 = tr.title))).map Prod.snd⟩) ::
        addEdges (newEnts [tr.title] (preNodesL tr.children)) (edgeEmits tr) from rfl]
  simp only [lookupT]
  rw [if_pos trivial]
  have hfilter : (addEdges (newEnts [tr.title] (preNodesL tr.children)) (edgeEmits tr)).filter
      (fun p => decide (p.1 ≠ tr.title)) =
      addEdges (newEnts [tr.title] (preNodesL tr.children)) (edgeEmits tr) := by
    refine List.filter_eq_self.mpr (fun p hp => ?_)
    simp only [decide_eq_true_eq]
    intro heq
    have hkey : p.1 ∈ (addEdges (newEnts [tr.title] (preNodesL tr.children))
        (edgeEmits tr)).map Prod.fst := List.mem_map.mpr ⟨p, hp, rfl⟩
    rw [keys_addEdges] at hkey
    exact mem_keys_newEnts_not_mem _ _ _ hkey (heq ▸ List.mem_singleton.mpr rfl)
  rw [filter_ne_key_cons, hfilter, List.map_cons]

/-- Every entry produced by `newEnts` stores the data of the first node of `P`
bearing its title. -/
theorem newEnts_entry_first_seen : ∀ (P : List TreeNode) (known : List String)
    (p : String × GraphNode), p ∈ newEnts known P →
    ∃ n, P.find? (fun m => decide (m.title = p.1)) = some n ∧ p.2 = baseGN n ∧ p.1 = n.title
  | [], known, p => by simp [newEnts]
  | n0 :: P, known, p => by
    simp only [newEnts]
    by_cases hm : n0.title ∈ known
    · rw [if_pos hm]
      intro hp
      obtain ⟨n, hfind, hbase, htitle⟩ := newEnts_entry_first_seen P known p hp
      refine ⟨n, ?_, hbase, htitle⟩
      have hne : ¬ n0.title = p.1 := by
        intro he
        have : p.1 ∈ (newEnts known P).map Prod.fst := List.mem_map.mpr ⟨p, hp, rfl⟩
        exact mem_keys_newEnts_not_mem _ _ _ this (he ▸ hm)
      rw [List.find?_cons_of_neg _ (by simpa using hne), hfind]
    · rw [if_neg hm]
      intro hp
      cases List.mem_cons.mp hp with
      | inl he =>
        subst he
        exact ⟨n0, by rw [List.find?_cons_of_pos _ (by simp)], rfl, rfl⟩
      | inr hp =>
        obtain ⟨n, hfind, hbase, htitle⟩ := newEnts_entry_first_seen P (n0.title :: known) p hp
        refine ⟨n, ?_, hbase, htitle⟩
        have hne : ¬ n0.title = p.1 := by
          intro he
          have : p.1 ∈ (newEnts (n0.title :: known) P).map Prod.fst :=
            List.mem_map.mpr ⟨p, hp, rfl⟩
          exact mem_keys_newEnts_not_mem _ _ _ this (he ▸ List.mem_cons_self _ _)
        rw [List.find?_cons_of_neg _ (by simpa using hne), hfind]

/-- Membership in `addEdges` output, tracked back to the underlying entry. -/
theorem mem_addEdges {ns : NM} {ems : List (String × Edge)} {p : String × GraphNode}
    (hp : p ∈ addEdges ns ems) :
    ∃ q ∈ ns, p.1 = q.1 ∧ p.2.id = q.2.id ∧ p.2.title = q.2.title ∧
      p.2.description = q.2.description ∧
      p.2.next = q.2.next ++ (ems.filter (fun r => decide (r.1 = q.1))).map Prod.snd := by
  simp only [addEdges, List.mem_map] at hp
  obtain ⟨q, hq, hpq⟩ := hp
  exact ⟨q, hq, by rw [← hpq], by rw [← hpq], by rw [← hpq], by rw [← hpq], by rw [← hpq]⟩

/-- The keys produced by `newEnts` are the first-occurrence deduplication of
the titles, minus the already-known ones. -/
theorem keys_newEnts_eq_dedup : ∀ (P : List TreeNode) (known : List String),
    (newEnts known P).map Prod.fst =
      (dedupFO (P.map TreeNode.title)).filter (fun x => decide (¬ x ∈ known))
  | [], known => by simp [newEnts, dedupFO]
  | n :: P, known => by
    simp only [List.map_cons, dedupFO, newEnts]
    by_cases hm : n.title ∈ known
    · rw [if_pos hm, List.filter_cons]
      rw [show (decide (¬ n.title ∈ known)) = false from by simp [hm]]
      rw [if_neg Bool.false_ne_true]
      rw [keys_newEnts_eq_dedup P known, List.filter_filter]
      refine List.filter_congr (fun x _ => ?_)
      by_cases hx : x = n.title
      · subst hx
        simp [hm]
      · simp [hx]
    · rw [if_neg hm, List.filter_cons]
      rw [show (decide (¬ n.title ∈ known)) = true from by simp [hm]]
      rw [if_pos rfl, List.map_cons]
      congr 1
      rw [keys_newEnts_eq_dedup P (n.title :: known), List.filter_filter]
      refine List.filter_congr (fun x _ => ?_)
      by_cases hx : x = n.title
      · subst hx
        simp
      · simp [hx, List.mem_cons]

theorem dedupFO_nodup : ∀ (l : List String), (dedupFO l).Nodup
  | [] => List.nodup_nil
  | a :: l => by
    simp only [dedupFO]
    refine List.nodup_cons.mpr ⟨?_, (dedupFO_nodup l).filter _⟩
    intro hmem
    have := (List.mem_filter.mp hmem).2
    simp at this

theorem dedupFO_eq_self_of_nodup : ∀ {l : List String}, l.Nodup → dedupFO l = l
  | [], _ => rfl
  | a :: l, h => by
    obtain ⟨hna, hnd⟩ := List.nodup_cons.mp h
    simp only [dedupFO]
    rw [dedupFO_eq_self_of_nodup hnd]
    congr 1
    refine List.filter_eq_self.mpr (fun x hx => ?_)
    simp only [decide_eq_true_eq]
    intro he
    exact hna (he ▸ hx)

theorem titles_children_to_flow (tr : TreeNode) :
    (children_to_flow tr).map GraphNode.title = dedupFO (preTitles tr) := by
  rw [children_to_flow_eq, List.map_map]
  have h1 : (addEdges (newEnts [] (preNodes tr)) (edgeEmits tr)).map
      (GraphNode.title ∘ Prod.snd) =
      (addEdges (newEnts [] (preNodes tr)) (edgeEmits tr)).map Prod.fst := by
    refine List.map_congr_left (fun p hp => ?_)
    obtain ⟨q, hq, hkey, _, htitle, _, _⟩ := mem_addEdges hp
    obtain ⟨n, _, hbase, hkeyt⟩ := newEnts_entry_first_seen _ _ _ hq
    simp only [Function.comp]
    rw [htitle, hbase, hkey, hkeyt]
    rfl
  rw [h1, keys_addEdges, keys_newEnts_eq_dedup]
  rw [show (preNodes tr).map TreeNode.title = preTitles tr from rfl]
  exact List.filter_eq_self.mpr (fun x _ => by simp)

/-- Claim C5: `TreeToGraph` emits the root's GraphNode first, then the
remaining ones in first-seen depth-first order (the output titles are exactly
the first-occurrence deduplication of the preorder titles, so one GraphNode
per title); every entry keeps the first-seen node's id and description, and
carries exactly the edges emitted under its title, so later occurrences of a
title contribute only additional edges. -/
theorem c5_tree_to_graph_shape (tr : TreeNode) :
    children_to_flow tr =
      (addEdges (newEnts [] (preNodes tr)) (edgeEmits tr)).map Prod.snd ∧
    (children_to_flow tr).map GraphNode.title = dedupFO (preTitles tr) ∧
    ((children_to_flow tr).map GraphNode.title).Nodup ∧
    (∃ g rest, children_to_flow tr = g :: rest ∧ g.title = tr.title ∧
      g.id = some (nidOf tr) ∧ g.description = some tr.description) ∧
    (∀ g ∈ children_to_flow tr, ∃ n,
      (preNodes tr).find? (fun m => decide (m.title = g.title)) = some n ∧
      g.id = some (nidOf n) ∧ g.description = some n.description) := by
  refine ⟨children_to_flow_eq tr, titles_children_to_flow tr, ?_, ?_, ?_⟩
  · rw [titles_children_to_flow]
    exact dedupFO_nodup _
  · rw [children_to_flow_eq tr]
    rw [show newEnts ([] : List String) (preNodes tr) =
        (tr.title, baseGN tr) :: newEnts [tr.title] (preNodesL tr.children) from by
      rw [preNodes_eq tr]
      simp only [newEnts]
      rw [if_neg (List.not_mem_nil _)]]
    exact ⟨_, _, rfl, rfl, rfl, rfl⟩
  · intro g hg
    rw [children_to_flow_eq tr] at hg
    obtain ⟨p, hp, hgp⟩ := List.mem_map.mp hg
    obtain ⟨q, hq, hkey, hid, htitle, hdesc, -⟩ := mem_addEdges hp
    obtain ⟨n, hfind, hbase, hkeyt⟩ := newEnts_entry_first_seen _ _ _ hq
    have hgt : g.title = p.1 := by
      rw [← hgp, htitle, hbase, hkey, hkeyt]
      rfl
    refine ⟨n, ?_, ?_, ?_⟩
    · rw [hgt, hkey]
      exact hfind
    · rw [← hgp, hid, hbase]
      rfl
    · rw [← hgp, hdesc, hbase]
      rfl

/-- Witness for C5's per-entry clause, on a two-node tree. -/
theorem c5_witness :
    ∃ n, (preNodes (.mk "a" "T" "d" none [.mk "b" "B" "e" none []])).find?
        (fun m => decide (m.title =
          GraphNode.title ⟨some "a", "T", some "d", [⟨some "", "B"⟩]⟩)) = some n ∧
      GraphNode.id ⟨some "a", "T", some "d", [⟨some "", "B"⟩]⟩ = some (nidOf n) ∧
      GraphNode.description ⟨some "a", "T", some "d", [⟨some "", "B"⟩]⟩ =
        some n.description :=
  (c5_tree_to_graph_shape (.mk "a" "T" "d" none [.mk "b" "B" "e" none []])).2.2.2.2
    ⟨some "a", "T", some "d", [⟨some "", "B"⟩]⟩ (by decide)

/-! Preorder membership and sublist facts. -/

theorem self_mem_preNodes (n : TreeNode) : n ∈ preNodes n := by
  rw [preNodes_eq]
  exact List.mem_cons_self _ _

theorem mem_preNodesL_of_mem : ∀ {cs : List TreeNode} {c : TreeNode},
    c ∈ cs → c ∈ preNodesL cs
  | c0 :: rest, c, h => by
    rw [show preNodesL (c0 :: rest) = preNodes c0 ++ preNodesL rest from rfl]
    cases List.mem_cons.mp h with
    | inl he => exact List.mem_append.mpr (Or.inl (he ▸ self_mem_preNodes c0))
    | inr hm => exact List.mem_append.mpr (Or.inr (mem_preNodesL_of_mem hm))

mutual
theorem preNodes_sublist : ∀ (n s : TreeNode), s ∈ preNodes n →
    List.Sublist (preNodes s) (preNodes n)
  | .mk i t d l cs, s, hs => by
    rw [show preNodes (.mk i t d l cs) = (.mk i t d l cs) :: preNodesL cs from rfl] at hs ⊢
    cases List.mem_cons.mp hs with
    | inl he =>
      rw [he]
      exact List.Sublist.refl _
    | inr hm => exact (preNodesL_sublist cs s hm).cons _

theorem preNodesL_sublist : ∀ (cs : List TreeNode) (s : TreeNode),
    s ∈ preNodesL cs → List.Sublist (preNodes s) (preNodesL cs)
  | c :: rest, s, hs => by
    rw [show preNodesL (c :: rest) = preNodes c ++ preNodesL rest from rfl] at hs ⊢
    cases List.mem_append.mp hs with
    | inl hm => exact (preNodes_sublist c s hm).trans (List.sublist_append_left _ _)
    | inr hm => exact (preNodesL_sublist rest s hm).trans (List.sublist_append_right _ _)
end

theorem mem_preNodes_trans {n s x : TreeNode} (hs : s ∈ preNodes n)
    (hx : x ∈ preNodes s) : x ∈ preNodes n :=
  (preNodes_sublist n s hs).subset hx

theorem child_mem_preNodes {s c : TreeNode} (hc : c ∈ s.children) : c ∈ preNodes s := by
  rw [preNodes_eq]
  exact List.mem_cons_of_mem _ (mem_preNodesL_of_mem hc)

theorem child_mem_tail {n p c : TreeNode} (hp : p ∈ preNodes n) (hc : c ∈ p.children) :
    c ∈ preNodesL n.children := by
  rw [preNodes_eq] at hp
  cases List.mem_cons.mp hp with
  | inl he =>
    subst he
    exact mem_preNodesL_of_mem hc
  | inr hm =>
    exact (preNodesL_sublist _ _ hm).subset (child_mem_preNodes hc)

theorem nodup_preTitles_of_mem {n s : TreeNode} (hnd : (preTitles n).Nodup)
    (hs : s ∈ preNodes n) : (preTitles s).Nodup :=
  hnd.sublist ((preNodes_sublist n s hs).map TreeNode.title)

theorem title_mem_preTitles (n : TreeNode) : n.title ∈ preTitles n := by
  rw [show preTitles n = (preNodes n).map TreeNode.title from rfl]
  exact List.mem_map.mpr ⟨n, self_mem_preNodes n, rfl⟩

theorem preTitles_eq (n : TreeNode) :
    preTitles n = n.title :: (preNodesL n.children).map TreeNode.title := by
  rw [show preTitles n = (preNodes n).map TreeNode.title from rfl, preNodes_eq, List.map_cons]

theorem preTitles_subset_of_mem {n s : TreeNode} (hs : s ∈ preNodes n) :
    ∀ x ∈ preTitles s, x ∈ preTitles n := fun _ hx =>
  ((preNodes_sublist n s hs).map TreeNode.title).subset hx

/-! Emission filtering for trees with pairwise-distinct titles. -/

theorem emitsL_filter_at_parent : ∀ (pt : String) (cs : List TreeNode),
    ¬ pt ∈ (preNodesL cs).map TreeNode.title →
    ((emitsL pt cs).filter (fun q => decide (q.1 = pt))).map Prod.snd = cs.map edgeFor
  | pt, [], _ => rfl
  | pt, c :: rest, hpt => by
    rw [show preNodesL (c :: rest) = preNodes c ++ preNodesL rest from rfl] at hpt
    simp only [List.map_append, List.mem_append] at hpt
    push_neg at hpt
    rw [show emitsL pt (c :: rest) =
      (pt, edgeFor c) :: (edgeEmits c ++ emitsL pt rest) from rfl]
    rw [List.filter_cons]
    rw [show (decide (((pt, edgeFor c) : String × Edge).1 = pt)) = true from by simp]
    rw [if_pos rfl, List.filter_append]
    have hc : (edgeEmits c).filter (fun q => decide (q.1 = pt)) = [] := by
      refine List.filter_eq_nil_iff.mpr (fun q hq => ?_)
      simp only [decide_eq_true_eq]
      intro he
      exact hpt.1 (he ▸ edgeEmits_key_mem c q hq)
    rw [hc, List.nil_append, List.map_cons]
    rw [emitsL_filter_at_parent pt rest hpt.2]
    rfl

mutual
theorem emits_filter_nodup : ∀ (n s : TreeNode),
    (preTitles n).Nodup → s ∈ preNodes n →
    ((edgeEmits n).filter (fun q => decide (q.1 = s.title))).map Prod.snd =
      s.children.map edgeFor
  | .mk i t d l cs, s, hnd, hs => by
    rw [show edgeEmits (.mk i t d l cs) = emitsL t cs from rfl]
    rw [preTitles_eq] at hnd
    obtain ⟨hhead, htail⟩ := List.nodup_cons.mp hnd
    rw [show preNodes (.mk i t d l cs) = (.mk i t d l cs) :: preNodesL cs from rfl] at hs
    cases List.mem_cons.mp hs with
    | inl he =>
      subst he
      exact emitsL_filter_at_parent t cs hhead
    | inr hm => exact emitsL_filter_inside t cs s hm htail hhead

theorem emitsL_filter_inside : ∀ (pt : String) (cs : List TreeNode) (s : TreeNode),
    s ∈ preNodesL cs →
    ((preNodesL cs).map TreeNode.title).Nodup →
    ¬ pt ∈ (preNodesL cs).map TreeNode.title →
    ((emitsL pt cs).filter (fun q => decide (q.1 = s.title))).map Prod.snd =
      s.children.map edgeFor
  | pt, c :: rest, s, hs, hnd, hpt => by
    have hsplit : preNodesL (c :: rest) = preNodes c ++ preNodesL rest := rfl
    rw [hsplit] at hs
    rw [hsplit, List.map_append] at hnd hpt
    simp only [List.mem_append] at hpt
    push_neg at hpt
    have hndc : ((preNodes c).map TreeNode.title).Nodup := hnd.of_append_left
    have hndr : ((preNodesL rest).map TreeNode.title).Nodup := hnd.of_append_right
    have hdisj : ∀ x, x ∈ (preNodes c).map TreeNode.title →
        x ∈ (preNodesL rest).map TreeNode.title → False := fun x h1 h2 =>
      (List.disjoint_of_nodup_append hnd) h1 h2
    rw [show emitsL pt (c :: rest) =
      (pt, edgeFor c) :: (edgeEmits c ++ emitsL pt rest) from rfl]
    cases List.mem_append.mp hs with
    | inl hmc =>
      have hst : s.title ∈ (preNodes c).map TreeNode.title :=
        List.mem_map.mpr ⟨s, hmc, rfl⟩
      have hne : ¬ pt = s.title := fun he => hpt.1 (he ▸ hst)
      rw [List.filter_cons]
      rw [show (decide (((pt, edgeFor c) : String × Edge).1 = s.title)) = false from by
        simp [hne]]
      rw [if_neg Bool.false_ne_true, List.filter_append, List.map_append]
      have hrest0 : (emitsL pt rest).filter (fun q => decide (q.1 = s.title)) = [] := by
        refine List.filter_eq_nil_iff.mpr (fun q hq => ?_)
        simp only [decide_eq_true_eq]
        intro he
        cases emitsL_key_mem pt rest q hq with
        | inl h => exact hne (h ▸ he)
        | inr h => exact hdisj q.1 (he ▸ hst) h
      rw [hrest0, emits_filter_nodup c s hndc hmc, List.map_nil, List.append_nil]
    | inr hmr =>
      have hst : s.title ∈ (preNodesL rest).map TreeNode.title :=
        List.mem_map.mpr ⟨s, hmr, rfl⟩
      have hne : ¬ pt = s.title := fun he => hpt.2 (he ▸ hst)
      rw [List.filter_cons]
      rw [show (decide (((pt, edgeFor c) : String × Edge).1 = s.title)) = false from by
        simp [hne]]
      rw [if_neg Bool.false_ne_true, List.filter_append, List.map_append]
      have hc0 : (edgeEmits c).filter (fun q => decide (q.1 = s.title)) = [] := by
        refine List.filter_eq_nil_iff.mpr (fun q hq => ?_)
        simp only [decide_eq_true_eq]
        intro he
        exact hdisj q.1 (edgeEmits_key_mem c q hq) (he ▸ hst)
      rw [hc0, emitsL_filter_inside pt rest s hmr hndr hpt.2, List.map_nil, List.nil_append]
end

/-! `by_title` lookups over the emitted flow, for trees with distinct titles. -/

theorem byTitle_of_nodup_mem : ∀ {flow : List GraphNode} {g : GraphNode},
    (flow.map GraphNode.title).Nodup → g ∈ flow → byTitle flow g.title = some g := by
  intro flow
  induction flow with
  | nil => intro g _ h; cases h
  | cons n rest ih =>
    intro g hnd hg
    rw [List.map_cons] at hnd
    obtain ⟨hhead, htail⟩ := List.nodup_cons.mp hnd
    unfold byTitle
    cases List.mem_cons.mp hg with
    | inl he =>
      subst he
      rw [show byTitle rest g.title = none from byTitle_eq_none_iff.mpr hhead]
      rw [if_pos rfl]
    | inr hm =>
      rw [ih htail hm]

theorem flow_titles_nodup (tr : TreeNode) :
    ((children_to_flow tr).map GraphNode.title).Nodup := by
  rw [titles_children_to_flow]
  exact dedupFO_nodup _

theorem entry_mem_newEnts_of_nodup : ∀ (P : List TreeNode) (known : List String)
    (s : TreeNode), (P.map TreeNode.title).Nodup → s ∈ P → ¬ s.title ∈ known →
    (s.title, baseGN s) ∈ newEnts known P
  | m :: P, known, s, hnd, hs, hk => by
    rw [List.map_cons] at hnd
    obtain ⟨hhead, htail⟩ := List.nodup_cons.mp hnd
    simp only [newEnts]
    cases List.mem_cons.mp hs with
    | inl he =>
      subst he
      rw [if_neg hk]
      exact List.mem_cons_self _ _
    | inr hm =>
      have hst : s.title ∈ P.map TreeNode.title := List.mem_map.mpr ⟨s, hm, rfl⟩
      by_cases hmk : m.title ∈ known
      · rw [if_pos hmk]
        exact entry_mem_newEnts_of_nodup P known s htail hm hk
      · rw [if_neg hmk]
        refine List.mem_cons_of_mem _ (entry_mem_newEnts_of_nodup P (m.title :: known) s
          htail hm ?_)
        intro hx
        cases List.mem_cons.mp hx with
        | inl he => exact hhead (he ▸ hst)
        | inr hmm => exact hk hmm

theorem gnode_mem_flow (tr : TreeNode) (hnd : (preTitles tr).Nodup) (s : TreeNode)
    (hs : s ∈ preNodes tr) :
    (⟨some (nidOf s), s.title, some s.description, s.children.map edgeFor⟩ : GraphNode) ∈
      children_to_flow tr := by
  rw [children_to_flow_eq]
  have hq : (s.title, baseGN s) ∈ newEnts [] (preNodes tr) :=
    entry_mem_newEnts_of_nodup _ _ _ hnd hs (List.not_mem_nil _)
  have hmem2 : (s.title, (⟨(baseGN s).id, (baseGN s).title, (baseGN s).description,
      (baseGN s).next ++ ((edgeEmits tr).filter (fun r => decide (r.1 = s.title))).map
        Prod.snd⟩ : GraphNode)) ∈ addEdges (newEnts [] (preNodes tr)) (edgeEmits tr) := by
    simp only [addEdges, List.mem_map]
    exact ⟨(s.title, baseGN s), hq, rfl⟩
  have hmem3 : (⟨(baseGN s).id, (baseGN s).title, (baseGN s).description,
      (baseGN s).next ++ ((edgeEmits tr).filter (fun r => decide (r.1 = s.title))).map
        Prod.snd⟩ : GraphNode) ∈
      (addEdges (newEnts [] (preNodes tr)) (edgeEmits tr)).map Prod.snd :=
    List.mem_map.mpr ⟨_, hmem2, rfl⟩
  rw [show (⟨some (nidOf s), s.title, some s.description, s.children.map edgeFor⟩ :
      GraphNode) =
    ⟨(baseGN s).id, (baseGN s).title, (baseGN s).description,
      (baseGN s).next ++ ((edgeEmits tr).filter (fun r => decide (r.1 = s.title))).map
        Prod.snd⟩ from by
    rw [emits_filter_nodup tr s hnd hs]
    rfl]
  exact hmem3

theorem byTitle_children_to_flow (tr : TreeNode) (hnd : (preTitles tr).Nodup)
    (s : TreeNode) (hs : s ∈ preNodes tr) :
    byTitle (children_to_flow tr) s.title =
      some ⟨some (nidOf s), s.title, some s.description, s.children.map edgeFor⟩ :=
  byTitle_of_nodup_mem (flow_titles_nodup tr) (gnode_mem_flow tr hnd s hs)

/-! Every emission is a parent/child pair of the tree. -/

mutual
theorem edgeEmits_mem_elim : ∀ (n : TreeNode) (q : String × Edge), q ∈ edgeEmits n →
    ∃ p c, p ∈ preNodes n ∧ c ∈ p.children ∧ q = (p.title, edgeFor c)
  | .mk i t d l cs, q, hq => by
    rw [show edgeEmits (.mk i t d l cs) = emitsL t cs from rfl] at hq
    cases emitsL_mem_elim t cs q hq with
    | inl h =>
      obtain ⟨c, hc, he⟩ := h
      exact ⟨.mk i t d l cs, c, self_mem_preNodes _, hc, he⟩
    | inr h =>
      obtain ⟨p, c, hp, hc, he⟩ := h
      refine ⟨p, c, ?_, hc, he⟩
      rw [show preNodes (.mk i t d l cs) = (.mk i t d l cs) :: preNodesL cs from rfl]
      exact List.mem_cons_of_mem _ hp

theorem emitsL_mem_elim : ∀ (pt : String) (cs : List TreeNode) (q : String × Edge),
    q ∈ emitsL pt cs →
    (∃ c ∈ cs, q = (pt, edgeFor c)) ∨
      ∃ p c, p ∈ preNodesL cs ∧ c ∈ p.children ∧ q = (p.title, edgeFor c)
  | pt, [], q, hq => by simp [emitsL] at hq
  | pt, c :: rest, q, hq => by
    rw [show emitsL pt (c :: rest) =
      (pt, edgeFor c) :: (edgeEmits c ++ emitsL pt rest) from rfl] at hq
    rcases List.mem_cons.mp hq with he | hq2
    · exact Or.inl ⟨c, List.mem_cons_self _ _, he⟩
    rcases List.mem_append.mp hq2 with h1 | h2
    · obtain ⟨p, c', hp, hc, he⟩ := edgeEmits_mem_elim c q h1
      refine Or.inr ⟨p, c', ?_, hc, he⟩
      rw [show preNodesL (c :: rest) = preNodes c ++ preNodesL rest from rfl]
      exact List.mem_append.mpr (Or.inl hp)
    · rcases emitsL_mem_elim pt rest q h2 with h | h
      · obtain ⟨c', hc, he⟩ := h
        exact Or.inl ⟨c', List.mem_cons_of_mem _ hc, he⟩
      · obtain ⟨p, c', hp, hc, he⟩ := h
        refine Or.inr ⟨p, c', ?_, hc, he⟩
        rw [show preNodesL (c :: rest) = preNodes c ++ preNodesL rest from rfl]
        exact List.mem_append.mpr (Or.inr hp)
end

theorem flow_edge_elim {tr : TreeNode} {g : GraphNode} {e : Edge}
    (hg : g ∈ children_to_flow tr) (he : e ∈ g.next) :
    ∃ p c, p ∈ preNodes tr ∧ c ∈ p.children ∧ e = edgeFor c := by
  rw [children_to_flow_eq] at hg
  obtain ⟨p, hp, hgp⟩ := List.mem_map.mp hg
  obtain ⟨q, hq, _, _, _, _, hnext⟩ := mem_addEdges hp
  obtain ⟨n, _, hbase, _⟩ := newEnts_entry_first_seen _ _ _ hq
  rw [← hgp, hnext, hbase] at he
  rw [show (baseGN n).next = [] from rfl, List.nil_append] at he
  obtain ⟨em, hem, heme⟩ := List.mem_map.mp he
  have hfil := (List.mem_filter.mp hem).1
  obtain ⟨pp, cc, hpp, hcc, hqe⟩ := edgeEmits_mem_elim tr em hfil
  refine ⟨pp, cc, hpp, hcc, ?_⟩
  rw [← heme, hqe]

theorem referenced_elim {tr : TreeNode} {x : String}
    (hx : x ∈ referencedOf (children_to_flow tr)) :
    ∃ p c, p ∈ preNodes tr ∧ c ∈ p.children ∧ x = c.title := by
  simp only [referencedOf, List.mem_flatMap, List.mem_filter, List.mem_map] at hx
  obtain ⟨g, hg, ⟨⟨e, he, hen⟩, -⟩⟩ := hx
  obtain ⟨p, c, hp, hc, hef⟩ := flow_edge_elim hg he
  exact ⟨p, c, hp, hc, by rw [← hen, hef]; rfl⟩

theorem rootTitle_children_to_flow (tr : TreeNode) (hnd : (preTitles tr).Nodup)
    (hstart : "START" ∈ preTitles tr → tr.title = "START") :
    flowRootTitle (children_to_flow tr) = tr.title := by
  have hkeys : dedupFO ((children_to_flow tr).map GraphNode.title) = preTitles tr := by
    rw [titles_children_to_flow, dedupFO_eq_self_of_nodup (dedupFO_nodup _),
      dedupFO_eq_self_of_nodup hnd]
  simp only [flowRootTitle]
  rw [hkeys]
  by_cases hSm : "START" ∈ preTitles tr
  · rw [if_pos hSm]
    exact (hstart hSm).symm
  · rw [if_neg hSm]
    have hunref : ¬ tr.title ∈ referencedOf (children_to_flow tr) := by
      intro hx
      obtain ⟨p, c, hp, hc, he⟩ := referenced_elim hx
      have hcm : c ∈ preNodesL tr.children := child_mem_tail hp hc
      have hmem : tr.title ∈ (preNodesL tr.children).map TreeNode.title := by
        rw [he]
        exact List.mem_map.mpr ⟨c, hcm, rfl⟩
      rw [preTitles_eq] at hnd
      exact (List.nodup_cons.mp hnd).1 hmem
    rw [preTitles_eq tr, List.find?_cons_of_pos _ (by simpa using hunref)]

/-! Height bounds. -/

theorem heightT_eq (n : TreeNode) : heightT n = 1 + heightL n.children := by
  cases n
  rfl

mutual
theorem heightT_le_card : ∀ (n : TreeNode), heightT n ≤ (preNodes n).length
  | .mk i t d l cs => by
    rw [show heightT (.mk i t d l cs) = 1 + heightL cs from rfl,
      show preNodes (.mk i t d l cs) = (.mk i t d l cs) :: preNodesL cs from rfl]
    simp only [List.length_cons]
    have := heightL_le_card cs
    omega

theorem heightL_le_card : ∀ (cs : List TreeNode), heightL cs ≤ (preNodesL cs).length
  | [] => Nat.zero_le _
  | c :: rest => by
    rw [show heightL (c :: rest) = max (heightT c) (heightL rest) from rfl,
      show preNodesL (c :: rest) = preNodes c ++ preNodesL rest from rfl]
    rw [List.length_append]
    have h1 := heightT_le_card c
    have h2 := heightL_le_card rest
    omega
end

theorem heightT_pos (n : TreeNode) : 1 ≤ heightT n := by
  rw [heightT_eq]
  omega

theorem canonicalChild_eq (n : TreeNode) :
    canonicalChild n = .mk (nidOf n) n.title n.description (some (labelOf n))
      (canonicalL n.children) := by
  cases n
  rfl

theorem canonicalRoot_eq (n : TreeNode) :
    canonicalRoot n = .mk (nidOf n) n.title n.description none (canonicalL n.children) := by
  cases n
  rfl

/-! The expansion of the emitted flow reproduces the tree, for distinct
titles. -/

mutual
theorem build_canonical : ∀ (s : TreeNode) (tr : TreeNode) (seen : List String) (fuel : Nat),
    (preTitles tr).Nodup → s ∈ preNodes tr →
    (∀ x ∈ seen, ¬ x ∈ preTitles s) → heightT s ≤ fuel →
    buildF (children_to_flow tr) fuel s.title seen =
      .mk (nidOf s) s.title s.description none (canonicalL s.children)
  | s, tr, seen, fuel, hnd, hs, hseen, hfuel => by
    cases fuel with
    | zero =>
      have := heightT_pos s
      omega
    | succ f =>
      have hbt := byTitle_children_to_flow tr hnd s hs
      have hsseen : ¬ s.title ∈ seen := fun hx => hseen s.title hx (title_mem_preTitles s)
      simp only [buildF, hbt]
      rw [if_neg hsseen]
      simp only [Option.getD_some]
      congr 1
      exact build_canonicalL s.children tr (s.title :: seen) f hnd
        (fun c hc => mem_preNodes_trans hs (child_mem_preNodes hc))
        (by
          intro x hx c hc
          cases List.mem_cons.mp hx with
          | inl he =>
            subst he
            intro hmem
            have hnds : (preTitles s).Nodup := nodup_preTitles_of_mem hnd hs
            rw [preTitles_eq] at hnds
            refine (List.nodup_cons.mp hnds).1 ?_
            have hsub : List.Sublist (preTitles c)
                ((preNodesL s.children).map TreeNode.title) :=
              (preNodesL_sublist s.children c (mem_preNodesL_of_mem hc)).map _
            exact hsub.subset hmem
          | inr hxm =>
            intro hmem
            exact hseen x hxm (preTitles_subset_of_mem (child_mem_preNodes hc) x hmem))
        (by
          have := heightT_eq s
          omega)

theorem build_canonicalL : ∀ (cs : List TreeNode) (tr : TreeNode) (seen : List String)
    (fuel : Nat),
    (preTitles tr).Nodup → (∀ c ∈ cs, c ∈ preNodes tr) →
    (∀ x ∈ seen, ∀ c ∈ cs, ¬ x ∈ preTitles c) → heightL cs ≤ fuel →
    (cs.map edgeFor).map
      (fun e => withLabel e (buildF (children_to_flow tr) fuel e.next seen)) =
      canonicalL cs
  | [], _, _, _, _, _, _, _ => rfl
  | c :: rest, tr, seen, fuel, hnd, hmem, hseen, hfuel => by
    rw [show ((c :: rest).map edgeFor).map
        (fun e => withLabel e (buildF (children_to_flow tr) fuel e.next seen)) =
        withLabel (edgeFor c) (buildF (children_to_flow tr) fuel (edgeFor c).next seen) ::
        (rest.map edgeFor).map
          (fun e => withLabel e (buildF (children_to_flow tr) fuel e.next seen)) from rfl]
    rw [show canonicalL (c :: rest) = canonicalChild c :: canonicalL rest from rfl]
    congr 1
    · rw [show (edgeFor c).next = c.title from rfl]
      rw [build_canonical c tr seen fuel hnd (hmem c (List.mem_cons_self _ _))
        (fun x hx => hseen x hx c (List.mem_cons_self _ _))
        (by
          have : heightL (c :: rest) = max (heightT c) (heightL rest) := rfl
          omega)]
      rw [canonicalChild_eq c]
      rfl
    · exact build_canonicalL rest tr seen fuel hnd
        (fun x hx => hmem x (List.mem_cons_of_mem _ hx))
        (fun x hx c' hc' => hseen x hx c' (List.mem_cons_of_mem _ hc'))
        (by
          have : heightL (c :: rest) = max (heightT c) (heightL rest) := rfl
          omega)
end

theorem labelOf_canonicalChild (c : TreeNode) : labelOf (canonicalChild c) = labelOf c := by
  rw [canonicalChild_eq c]
  rfl

mutual
theorem isoB_canonicalChild : ∀ (n : TreeNode), isoB n (canonicalChild n) = true
  | .mk i t d l cs => by
    show (decide (t = t) && decide (d = d) && isoL cs (canonicalL cs)) = true
    simp [isoL_canonicalL cs]

theorem isoL_canonicalL : ∀ (cs : List TreeNode), isoL cs (canonicalL cs) = true
  | [] => rfl
  | c :: rest => by
    show (decide (labelOf c = labelOf (canonicalChild c)) && isoB c (canonicalChild c) &&
        isoL rest (canonicalL rest)) = true
    simp [isoB_canonicalChild c, isoL_canonicalL rest, labelOf_canonicalChild c]
end

theorem isoB_canonical_root_shape (n : TreeNode) :
    isoB n (.mk (nidOf n) n.title n.description none (canonicalL n.children)) = true := by
  cases n with
  | mk i t d l cs =>
    show (decide (t = t) && decide (d = d) && isoL cs (canonicalL cs)) = true
    simp [isoL_canonicalL cs]

/-- The counterexample input for C1: the tree `A → START` has pairwise distinct
titles, yet its round trip is the single node `START` — root inference latches
onto the non-root `"START"` title, so the result is not isomorphic to the
original. -/
theorem c1_counterexample :
    (preTitles (.mk "a" "A" "" none [.mk "s" "START" "" none []])).Nodup ∧
    flow_to_children (children_to_flow (.mk "a" "A" "" none [.mk "s" "START" "" none []])) =
      .mk "s" "START" "" none [] ∧
    isoB (.mk "a" "A" "" none [.mk "s" "START" "" none []])
      (flow_to_children (children_to_flow
        (.mk "a" "A" "" none [.mk "s" "START" "" none []]))) = false := by
  refine ⟨by decide, rfl, by decide⟩

/-- Claim C1 (amended): for every tree with pairwise distinct titles in which a
node titled `"START"` can only be the root, flattening with `TreeToGraph` and
re-expanding with `GraphToTree` yields a tree isomorphic to the original (same
titles, same descriptions, same edge labels — an absent `edgeLabel` key
denoting the empty label — and same child order); exactly, the result is the
original tree with each id regenerated from the title when empty and each
non-root `edgeLabel` made explicit with default `""`. -/
theorem c1_round_trip (tr : TreeNode)
    (hnd : (preTitles tr).Nodup)
    (hstart : "START" ∈ preTitles tr → tr.title = "START") :
    flow_to_children (children_to_flow tr) = canonicalRoot tr ∧
    isoB tr (flow_to_children (children_to_flow tr)) = true := by
  have hlen : (preNodes tr).length ≤ (children_to_flow tr).length := by
    have h1 : ((children_to_flow tr).map GraphNode.title).length =
        (preTitles tr).length := by
      rw [titles_children_to_flow, dedupFO_eq_self_of_nodup hnd]
    rw [List.length_map] at h1
    rw [h1]
    rw [show preTitles tr = (preNodes tr).map TreeNode.title from rfl, List.length_map]
  have hmain : flow_to_children (children_to_flow tr) =
      .mk (nidOf tr) tr.title tr.description none (canonicalL tr.children) := by
    unfold flow_to_children
    rw [rootTitle_children_to_flow tr hnd hstart]
    refine build_canonical tr tr [] ((children_to_flow tr).length + 1) hnd
      (self_mem_preNodes tr) (by simp) ?_
    have := heightT_le_card tr
    omega
  refine ⟨hmain.trans (canonicalRoot_eq tr).symm, ?_⟩
  rw [hmain]
  exact isoB_canonical_root_shape tr

/-- Witness for C1 on a two-node tree with an empty child id and an explicit
edge label. -/
theorem c1_witness :
    flow_to_children (children_to_flow
        (.mk "a" "A" "dA" none [.mk "" "B" "dB" (some "l") []])) =
      canonicalRoot (.mk "a" "A" "dA" none [.mk "" "B" "dB" (some "l") []]) ∧
    isoB (.mk "a" "A" "dA" none [.mk "" "B" "dB" (some "l") []])
      (flow_to_children (children_to_flow
        (.mk "a" "A" "dA" none [.mk "" "B" "dB" (some "l") []]))) = true :=
  c1_round_trip _ (by decide) (by decide)

/-! Edge labels across the round trip. -/

theorem mem_preNodesL_elim : ∀ {cs : List TreeNode} {s : TreeNode},
    s ∈ preNodesL cs → ∃ x ∈ cs, s ∈ preNodes x
  | c :: rest, s, hs => by
    rw [show preNodesL (c :: rest) = preNodes c ++ preNodesL rest from rfl] at hs
    cases List.mem_append.mp hs with
    | inl h => exact ⟨c, List.mem_cons_self _ _, h⟩
    | inr h =>
      obtain ⟨x, hx, hsx⟩ := mem_preNodesL_elim h
      exact ⟨x, List.mem_cons_of_mem _ hx, hsx⟩

theorem buildF_edgeLabel_none (flow : List GraphNode) (fuel : Nat) (title : String)
    (seen : List String) : (buildF flow fuel title seen).edgeLabel = none := by
  cases fuel with
  | zero => rfl
  | succ f =>
    simp only [buildF]
    cases byTitle flow title with
    | none => rfl
    | some src =>
      by_cases hs : title ∈ seen
      · simp [hs, TreeNode.edgeLabel]
      · simp [hs, TreeNode.edgeLabel]

theorem buildF_children_labels : ∀ (fuel : Nat) (flow : List GraphNode) (title : String)
    (seen : List String) (sub : TreeNode), sub ∈ preNodes (buildF flow fuel title seen) →
    ∀ (i : Nat) (c : TreeNode), sub.children[i]? = some c →
    ∃ src e, byTitle flow sub.title = some src ∧ src.next[i]? = some e ∧
      c.edgeLabel = e.label := by
  intro fuel
  induction fuel with
  | zero =>
    intro flow title seen sub hsub i c hc
    rw [show buildF flow 0 title seen = .mk "" "" "" none [] from rfl] at hsub
    rw [show preNodes (.mk "" "" "" none []) = [.mk "" "" "" none []] from rfl] at hsub
    rw [List.mem_singleton] at hsub
    subst hsub
    simp [TreeNode.children] at hc
  | succ f ih =>
    intro flow title seen sub hsub i c hc
    simp only [buildF] at hsub
    cases hbt : byTitle flow title with
    | none =>
      simp only [hbt] at hsub
      rw [show preNodes (stubNode title) = [stubNode title] from rfl] at hsub
      rw [List.mem_singleton] at hsub
      subst hsub
      simp [stubNode, TreeNode.children] at hc
    | some src =>
      simp only [hbt] at hsub
      by_cases hs : title ∈ seen
      · rw [if_pos hs] at hsub
        rw [show preNodes (.mk (src.id.getD title) src.title (src.description.getD "")
          none []) = [.mk (src.id.getD title) src.title (src.description.getD "") none []]
          from rfl] at hsub
        rw [List.mem_singleton] at hsub
        subst hsub
        simp [TreeNode.children] at hc
      · rw [if_neg hs] at hsub
        rw [preNodes_eq] at hsub
        cases List.mem_cons.mp hsub with
        | inl he =>
          subst he
          rw [show (TreeNode.mk (src.id.getD title) src.title (src.description.getD "") none
            (src.next.map (fun e =>
              withLabel e (buildF flow f e.next (title :: seen))))).children =
            src.next.map (fun e => withLabel e (buildF flow f e.next (title :: seen)))
            from rfl] at hc
          rw [List.getElem?_map] at hc
          cases hnext : src.next[i]? with
          | none => rw [hnext] at hc; cases hc
          | some e =>
            rw [hnext, Option.map_some'] at hc
            refine ⟨src, e, ?_, hnext, ?_⟩
            · rw [show (TreeNode.mk (src.id.getD title) src.title (src.description.getD "")
                none (src.next.map (fun e =>
                  withLabel e (buildF flow f e.next (title :: seen))))).title = src.title
                from rfl]
              rw [byTitle_some_title hbt]
              exact hbt
            · cases hc
              cases hel : e.label with
              | none =>
                rw [show withLabel e (buildF flow f e.next (title :: seen)) =
                  buildF flow f e.next (title :: seen) from by
                    simp only [withLabel, hel]]
                rw [buildF_edgeLabel_none]
              | some lab =>
                rw [show withLabel e (buildF flow f e.next (title :: seen)) =
                  .mk (buildF flow f e.next (title :: seen)).id
                    (buildF flow f e.next (title :: seen)).title
                    (buildF flow f e.next (title :: seen)).description (some lab)
                    (buildF flow f e.next (title :: seen)).children from by
                    simp only [withLabel, hel]]
                rfl
        | inr hm =>
          rw [show (TreeNode.mk (src.id.getD title) src.title (src.description.getD "") none
            (src.next.map (fun e =>
              withLabel e (buildF flow f e.next (title :: seen))))).children =
            src.next.map (fun e => withLabel e (buildF flow f e.next (title :: seen)))
            from rfl] at hm
          obtain ⟨x, hx, hsx⟩ := mem_preNodesL_elim hm
          obtain ⟨e, _, hxe⟩ := List.mem_map.mp hx
          subst hxe
          cases hel : e.label with
          | none =>
            rw [show withLabel e (buildF flow f e.next (title :: seen)) =
              buildF flow f e.next (title :: seen) from by
                simp only [withLabel, hel]] at hsx
            exact ih flow e.next (title :: seen) sub hsx i c hc
          | some lab =>
            rw [show withLabel e (buildF flow f e.next (title :: seen)) =
              .mk (buildF flow f e.next (title :: seen)).id
                (buildF flow f e.next (title :: seen)).title
                (buildF flow f e.next (title :: seen)).description (some lab)
                (buildF flow f e.next (title :: seen)).children from by
                simp only [withLabel, hel]] at hsx
            rw [preNodes_eq] at hsx
            cases List.mem_cons.mp hsx with
            | inl he2 =>
              subst he2
              have hroot := ih flow e.next (title :: seen)
                (buildF flow f e.next (title :: seen))
                (self_mem_preNodes _) i c (by
                  rw [show (TreeNode.mk (buildF flow f e.next (title :: seen)).id
                    (buildF flow f e.next (title :: seen)).title
                    (buildF flow f e.next (title :: seen)).description (some lab)
                    (buildF flow f e.next (title :: seen)).children).children =
                    (buildF flow f e.next (title :: seen)).children from rfl] at hc
                  exact hc)
              obtain ⟨src', e', h1, h2, h3⟩ := hroot
              exact ⟨src', e', h1, h2, h3⟩
            | inr hm2 =>
              refine ih flow e.next (title :: seen) sub ?_ i c hc
              rw [preNodes_eq]
              exact List.mem_cons_of_mem _ hm2

/-- Claim C10: every edge `TreeToGraph` emits carries a `label` key, equal to
the child's `edgeLabel` when present and `""` otherwise; in any tree built by
`GraphToTree`, each child's `edgeLabel` equals the corresponding flow edge's
label; consequently, after a round trip every non-root node carries a present
`edgeLabel` key — an absent label is not preserved as absent. -/
theorem c10_edge_labels (tr : TreeNode) :
    (∀ g ∈ children_to_flow tr, ∀ e ∈ g.next, ∃ p c, p ∈ preNodes tr ∧ c ∈ p.children ∧
        e = ⟨some (c.edgeLabel.getD ""), c.title⟩) ∧
    (∀ (flow : List GraphNode) (fuel : Nat) (title : String) (seen : List String)
        (sub : TreeNode), sub ∈ preNodes (buildF flow fuel title seen) →
        ∀ (i : Nat) (c : TreeNode), sub.children[i]? = some c →
        ∃ src e, byTitle flow sub.title = some src ∧ src.next[i]? = some e ∧
          c.edgeLabel = e.label) ∧
    (∀ sub, sub ∈ preNodes (flow_to_children (children_to_flow tr)) →
        ∀ c ∈ sub.children, c.edgeLabel.isSome = true) := by
  refine ⟨?_, fun flow fuel title seen => buildF_children_labels fuel flow title seen, ?_⟩
  · intro g hg e he
    obtain ⟨p, c, hp, hc, hef⟩ := flow_edge_elim hg he
    exact ⟨p, c, hp, hc, hef⟩
  · intro sub hsub c hcm
    obtain ⟨i, hi⟩ := List.mem_iff_getElem?.mp hcm
    obtain ⟨src, e, hbt, hnext, hlab⟩ :=
      buildF_children_labels _ _ _ _ sub hsub i c hi
    have hsrc : src ∈ children_to_flow tr := byTitle_some_mem hbt
    have hem : e ∈ src.next := List.mem_iff_getElem?.mpr ⟨i, hnext⟩
    obtain ⟨p2, c2, _, _, hef⟩ := flow_edge_elim hsrc hem
    rw [hlab, hef]
    rfl

/-- Witness for C10: after round-tripping `A → B` (no label on the edge), the
rebuilt child `B` carries the explicit empty label. -/
theorem c10_witness :
    Option.isSome (TreeNode.edgeLabel (.mk "b" "B" "" (some "") [])) = true := by
  have h := (c10_edge_labels (.mk "a" "A" "" none [.mk "b" "B" "" none []])).2.2
  refine h (.mk "a" "A" "" none [.mk "b" "B" "" (some "") []]) ?_
    (.mk "b" "B" "" (some "") []) ?_
  · rw [show preNodes (flow_to_children (children_to_flow
      (.mk "a" "A" "" none [.mk "b" "B" "" none []]))) =
      [.mk "a" "A" "" none [.mk "b" "B" "" (some "") []],
       .mk "b" "B" "" (some "") []] from rfl]
    exact List.mem_cons_self _ _
  · rw [show (TreeNode.mk "a" "A" "" none [.mk "b" "B" "" (some "") []]).children =
      [.mk "b" "B" "" (some "") []] from rfl]
    exact List.mem_cons_self _ _

/-! The edit mutation: first-match replacement and its frame. -/

mutual
theorem editT_frame : ∀ (n : TreeNode) (nid : String) (t? d? : Option String)
    (par : Option TreeNode) (c : TreeNode) (pOpt : Option TreeNode),
    find_node n nid par = some (c, pOpt) →
    ∃ n' path, editT nid t? d? n = some n' ∧
      getPath n path = some c ∧
      getPath n' path = some (.mk c.id (t?.getD c.title) (d?.getD c.description)
        c.edgeLabel c.children) ∧
      ∀ q, q ≠ path → (getPath n' q).map nodeData = (getPath n q).map nodeData
  | .mk i t d l cs, nid, t?, d?, par, c, pOpt, hf => by
    rw [show find_node (.mk i t d l cs) nid par =
      (if i = nid then some ((.mk i t d l cs : TreeNode), par)
       else findL cs nid (.mk i t d l cs)) from rfl] at hf
    by_cases hi : i = nid
    · rw [if_pos hi] at hf
      have hc : c = .mk i t d l cs := by
        injection hf with h1
        injection h1 with h2 h3
        exact h2.symm
      subst hc
      refine ⟨.mk i (t?.getD t) (d?.getD d) l cs, [], ?_, rfl, rfl, ?_⟩
      · rw [show editT nid t? d? (.mk i t d l cs) =
          (if i = nid then some (.mk i (t?.getD t) (d?.getD d) l cs)
           else (editL nid t? d? cs).map (fun z => .mk i t d l z)) from rfl]
        rw [if_pos hi]
      · intro q hq
        cases q with
        | nil => exact absurd rfl hq
        | cons k q' => rfl
    · rw [if_neg hi] at hf
      obtain ⟨cs', j, path0, hedl, hjlt, hlen, hother, cj, cj', hcsj, hcs'j, hgc, hgc',
        hframe⟩ := editL_frame cs nid t? d? (.mk i t d l cs) c pOpt hf
      refine ⟨.mk i t d l cs', j :: path0, ?_, ?_, ?_, ?_⟩
      · rw [show editT nid t? d? (.mk i t d l cs) =
          (if i = nid then some (.mk i (t?.getD t) (d?.getD d) l cs)
           else (editL nid t? d? cs).map (fun z => .mk i t d l z)) from rfl]
        rw [if_neg hi, hedl, Option.map_some']
      · rw [show getPath (.mk i t d l cs) (j :: path0) =
          (match cs[j]? with | some x => getPath x path0 | none => none) from rfl]
        rw [hcsj]
        exact hgc
      · rw [show getPath (.mk i t d l cs') (j :: path0) =
          (match cs'[j]? with | some x => getPath x path0 | none => none) from rfl]
        rw [hcs'j]
        exact hgc'
      · intro q hq
        cases q with
        | nil =>
          rw [show getPath (.mk i t d l cs') [] = some (.mk i t d l cs') from rfl,
            show getPath (.mk i t d l cs) [] = some (.mk i t d l cs) from rfl]
          simp only [Option.map_some']
          rw [show nodeData (.mk i t d l cs') = (i, t, d, l, cs'.length) from rfl,
            show nodeData (.mk i t d l cs) = (i, t, d, l, cs.length) from rfl, hlen]
        | cons k q' =>
          rw [show getPath (.mk i t d l cs') (k :: q') =
            (match cs'[k]? with | some x => getPath x q' | none => none) from rfl,
            show getPath (.mk i t d l cs) (k :: q') =
            (match cs[k]? with | some x => getPath x q' | none => none) from rfl]
          by_cases hk : k = j
          · subst hk
            rw [hcsj, hcs'j]
            have hq' : q' ≠ path0 := fun he => hq (by rw [he])
            exact hframe q' hq'
          · rw [hother k hk]

theorem editL_frame : ∀ (cs : List TreeNode) (nid : String) (t? d? : Option String)
    (par : TreeNode) (c : TreeNode) (pOpt : Option TreeNode),
    findL cs nid par = some (c, pOpt) →
    ∃ cs' j path, editL nid t? d? cs = some cs' ∧ j < cs.length ∧
      cs'.length = cs.length ∧
      (∀ k, k ≠ j → cs'[k]? = cs[k]?) ∧
      ∃ cj cj', cs[j]? = some cj ∧ cs'[j]? = some cj' ∧
        getPath cj path = some c ∧
        getPath cj' path = some (.mk c.id (t?.getD c.title) (d?.getD c.description)
          c.edgeLabel c.children) ∧
        ∀ q, q ≠ path → (getPath cj' q).map nodeData = (getPath cj q).map nodeData
  | [], nid, t?, d?, par, c, pOpt, hf => by
    rw [show findL [] nid par = none from rfl] at hf
    cases hf
  | c0 :: rest, nid, t?, d?, par, c, pOpt, hf => by
    rw [show findL (c0 :: rest) nid par =
      (match find_node c0 nid (some par) with
       | some r => some r
       | none => findL rest nid par) from rfl] at hf
    cases hfc : find_node c0 nid (some par) with
    | some r =>
      rw [hfc] at hf
      cases hf
      obtain ⟨n0', path0, hed0, hg0, hg0', hfr0⟩ :=
        editT_frame c0 nid t? d? (some par) c pOpt hfc
      refine ⟨n0' :: rest, 0, path0, ?_, by simp, by simp, ?_,
        c0, n0', List.getElem?_cons_zero, List.getElem?_cons_zero, hg0, hg0', hfr0⟩
      · rw [show editL nid t? d? (c0 :: rest) =
          (match editT nid t? d? c0 with
           | some c' => some (c' :: rest)
           | none => (editL nid t? d? rest).map (fun z => c0 :: z)) from rfl]
        rw [hed0]
      · intro k hk
        cases k with
        | zero => exact absurd rfl hk
        | succ k' => rw [List.getElem?_cons_succ, List.getElem?_cons_succ]
    | none =>
      rw [hfc] at hf
      obtain ⟨cs'', j0, path0, hed, hjlt, hlen, hother, cj, cj', hcj, hcj', hg, hg', hfr⟩ :=
        editL_frame rest nid t? d? par c pOpt hf
      have hed0 : editT nid t? d? c0 = none :=
        (editT_eq_none_iff c0 nid t? d?).mpr
          ((find_node_eq_none_iff c0 nid (some par)).mp hfc)
      refine ⟨c0 :: cs'', j0 + 1, path0, ?_, ?_, ?_, ?_, cj, cj', ?_, ?_, hg, hg', hfr⟩
      · rw [show editL nid t? d? (c0 :: rest) =
          (match editT nid t? d? c0 with
           | some c' => some (c' :: rest)
           | none => (editL nid t? d? rest).map (fun z => c0 :: z)) from rfl]
        rw [hed0, hed, Option.map_some']
      · simp only [List.length_cons]
        omega
      · simp [hlen]
      · intro k hk
        cases k with
        | zero => rw [List.getElem?_cons_zero, List.getElem?_cons_zero]
        | succ k' =>
          have hk' : k' ≠ j0 := fun he => hk (by rw [he])
          rw [List.getElem?_cons_succ, List.getElem?_cons_succ]
          exact hother k' hk'
      · rw [List.getElem?_cons_succ]
        exact hcj
      · rw [List.getElem?_cons_succ]
        exact hcj'
end

/-- Claim C8: for every tree and every existing node id, editing overwrites the
found node's title exactly when one is present in the request and its
description exactly when one is present, and changes nothing else — the edited
node keeps its id, `edgeLabel` and children, and every node off the edited path
keeps its id, title, description, `edgeLabel` and child count. -/
theorem c8_edit_frame (n : TreeNode) (nid : String) (t? d? : Option String)
    (c : TreeNode) (pOpt : Option TreeNode)
    (hf : find_node n nid none = some (c, pOpt)) :
    ∃ n' path, editT nid t? d? n = some n' ∧
      getPath n path = some c ∧
      getPath n' path = some (.mk c.id (t?.getD c.title) (d?.getD c.description)
        c.edgeLabel c.children) ∧
      ∀ q, q ≠ path → (getPath n' q).map nodeData = (getPath n q).map nodeData :=
  editT_frame n nid t? d? none c pOpt hf

/-- Witness for C8: editing `b`'s title in a two-node tree. -/
theorem c8_witness :
    ∃ n' path, editT "b" (some "B2") none
        (.mk "a" "A" "dA" none [.mk "b" "B" "dB" (some "l") []]) = some n' ∧
      getPath (.mk "a" "A" "dA" none [.mk "b" "B" "dB" (some "l") []]) path =
        some (.mk "b" "B" "dB" (some "l") []) ∧
      getPath n' path = some (.mk "b" "B2" "dB" (some "l") []) ∧
      ∀ q, q ≠ path → (getPath n' q).map nodeData =
        (getPath (.mk "a" "A" "dA" none [.mk "b" "B" "dB" (some "l") []]) q).map nodeData :=
  c8_edit_frame (.mk "a" "A" "dA" none [.mk "b" "B" "dB" (some "l") []]) "b"
    (some "B2") none (.mk "b" "B" "dB" (some "l") [])
    (some (.mk "a" "A" "dA" none [.mk "b" "B" "dB" (some "l") []])) rfl

/-! The delete mutation: first-match removal and its characterization. -/

theorem find_node_eq (n : TreeNode) (nid : String) (par : Option TreeNode) :
    find_node n nid par =
      if n.id = nid then some (n, par) else findL n.children nid n := by
  cases n
  rfl

theorem delT_eq (n : TreeNode) (nid : String) :
    delT nid n = (delL nid n.children).map
      (fun z => .mk n.id n.title n.description n.edgeLabel z) := by
  cases n
  rfl

theorem delL_cons_eq (nid : String) (c : TreeNode) (rest : List TreeNode) :
    delL nid (c :: rest) =
      if c.id = nid then some (rest.filter (fun x => decide (x.id ≠ nid)))
      else
        match delT nid c with
        | some c' => some (c' :: rest)
        | none => (delL nid rest).map (fun z => c :: z) := rfl

theorem updAt_eq (n : TreeNode) (nid pid : String) :
    updAt nid pid n =
      if n.id = pid then
        .mk n.id n.title n.description n.edgeLabel
          (n.children.filter (fun c => decide (c.id ≠ nid)))
      else .mk n.id n.title n.description n.edgeLabel (updAtL nid pid n.children) := by
  cases n
  rfl

theorem updAtL_cons_eq (nid pid : String) (c : TreeNode) (rest : List TreeNode) :
    updAtL nid pid (c :: rest) = updAt nid pid c :: updAtL nid pid rest := rfl

mutual
theorem delT_eq_none_iff : ∀ (n : TreeNode) (nid : String),
    delT nid n = none ↔ ¬ nid ∈ (preNodesL n.children).map TreeNode.id
  | .mk i t d l cs, nid => by
    rw [delT_eq, Option.map_eq_none']
    exact delL_eq_none_iff cs nid

theorem delL_eq_none_iff : ∀ (cs : List TreeNode) (nid : String),
    delL nid cs = none ↔ ¬ nid ∈ (preNodesL cs).map TreeNode.id
  | [], nid => by simp [delL, preNodesL]
  | c :: rest, nid => by
    rw [show preNodesL (c :: rest) = preNodes c ++ preNodesL rest from rfl, List.map_append,
      delL_cons_eq]
    by_cases hc : c.id = nid
    · rw [if_pos hc]
      constructor
      · intro h; cases h
      · intro h
        refine absurd (List.mem_append.mpr (Or.inl ?_)) h
        rw [preNodes_eq, List.map_cons]
        exact List.mem_cons.mpr (Or.inl hc.symm)
    · rw [if_neg hc]
      cases hdt : delT nid c with
      | some c' =>
        have hmem : nid ∈ (preNodesL c.children).map TreeNode.id := by
          by_contra hx
          rw [← delT_eq_none_iff c nid] at hx
          rw [hdt] at hx
          cases hx
        constructor
        · intro h; cases h
        · intro h
          refine absurd (List.mem_append.mpr (Or.inl ?_)) h
          rw [preNodes_eq, List.map_cons]
          exact List.mem_cons_of_mem _ hmem
      | none =>
        have hnc : ¬ nid ∈ (preNodesL c.children).map TreeNode.id :=
          (delT_eq_none_iff c nid).mp hdt
        rw [Option.map_eq_none', delL_eq_none_iff rest nid]
        constructor
        · intro h hm
          cases List.mem_append.mp hm with
          | inl h1 =>
            rw [preNodes_eq, List.map_cons] at h1
            cases List.mem_cons.mp h1 with
            | inl he => exact hc he.symm
            | inr hh => exact hnc hh
          | inr h2 => exact h h2
        · intro h hm
          exact h (List.mem_append.mpr (Or.inr hm))
end

mutual
theorem updAt_eq_self : ∀ (n : TreeNode) (nid pid : String),
    ¬ pid ∈ (preNodes n).map TreeNode.id → updAt nid pid n = n
  | .mk i t d l cs, nid, pid, h => by
    rw [preNodes_eq, List.map_cons] at h
    have h1 : ¬ (TreeNode.mk i t d l cs).id = pid :=
      fun he => h (List.mem_cons.mpr (Or.inl he.symm))
    have h2 : ¬ pid ∈ (preNodesL cs).map TreeNode.id :=
      fun hm => h (List.mem_cons.mpr (Or.inr hm))
    rw [updAt_eq, if_neg h1]
    rw [show updAtL nid pid (TreeNode.mk i t d l cs).children = updAtL nid pid cs from rfl]
    rw [updAtL_eq_self cs nid pid h2]
    rfl

theorem updAtL_eq_self : ∀ (cs : List TreeNode) (nid pid : String),
    ¬ pid ∈ (preNodesL cs).map TreeNode.id → updAtL nid pid cs = cs
  | [], _, _, _ => rfl
  | c :: rest, nid, pid, h => by
    rw [show preNodesL (c :: rest) = preNodes c ++ preNodesL rest from rfl,
      List.map_append] at h
    rw [updAtL_cons_eq]
    rw [updAt_eq_self c nid pid (fun hm => h (List.mem_append.mpr (Or.inl hm))),
      updAtL_eq_self rest nid pid (fun hm => h (List.mem_append.mpr (Or.inr hm)))]
end

mutual
/-- If `findL` locates the id somewhere inside the subtree of `n` (scanning
`n.children` with `n` as parent), then under globally unique ids `delT`
succeeds and equals the filter-at-the-found-parent rewrite `updAt`, and the
found parent's children decompose around the single matching child. -/
theorem delT_frame : ∀ (n : TreeNode) (nid : String) (c : TreeNode)
    (pres : Option TreeNode),
    findL n.children nid n = some (c, pres) →
    ((preNodes n).map TreeNode.id).Nodup →
    ∃ p, pres = some p ∧ p ∈ preNodes n ∧ c.id = nid ∧
      delT nid n = some (updAt nid p.id n) ∧
      ∃ l1 l2, p.children = l1 ++ c :: l2 ∧
        p.children.filter (fun x => decide (x.id ≠ nid)) = l1 ++ l2
  | .mk i t d l cs, nid, c, pres, hf, hnd => by
    rw [preNodes_eq, List.map_cons] at hnd
    obtain ⟨hhead, htail⟩ := List.nodup_cons.mp hnd
    cases delL_frame cs nid (.mk i t d l cs) c pres hf htail with
    | inl hcase =>
      obtain ⟨hpres, hcid, hdel, l1, l2, hdec, hfil⟩ := hcase
      refine ⟨.mk i t d l cs, hpres, self_mem_preNodes _, hcid, ?_, l1, l2, hdec, hfil⟩
      rw [delT_eq, show (TreeNode.mk i t d l cs).children = cs from rfl, hdel,
        Option.map_some', updAt_eq, if_pos rfl]
      rfl
    | inr hcase =>
      obtain ⟨p, hpres, hpmem, hcid, hdel, l1, l2, hdec, hfil⟩ := hcase
      refine ⟨p, hpres, ?_, hcid, ?_, l1, l2, hdec, hfil⟩
      · rw [preNodes_eq]
        exact List.mem_cons_of_mem _ hpmem
      · rw [delT_eq, show (TreeNode.mk i t d l cs).children = cs from rfl, hdel,
          Option.map_some', updAt_eq]
        have hneq : ¬ (TreeNode.mk i t d l cs).id = p.id := by
          intro he
          refine hhead ?_
          rw [he]
          exact List.mem_map.mpr ⟨p, hpmem, rfl⟩
        rw [if_neg hneq]
        rfl

/-- List version of `delT_frame`: scanning the sibling list `cs` with parent
`par`, the first depth-first match is either a direct element of `cs` (the
parent is `par` and `delL` filters `cs` itself) or lies deeper (the parent is
inside one element and `delL` equals `updAtL`). -/
theorem delL_frame : ∀ (cs : List TreeNode) (nid : String) (par : TreeNode)
    (c : TreeNode) (pres : Option TreeNode),
    findL cs nid par = some (c, pres) →
    ((preNodesL cs).map TreeNode.id).Nodup →
    (pres = some par ∧ c.id = nid ∧
      delL nid cs = some (cs.filter (fun x => decide (x.id ≠ nid))) ∧
      ∃ l1 l2, cs = l1 ++ c :: l2 ∧
        cs.filter (fun x => decide (x.id ≠ nid)) = l1 ++ l2) ∨
    (∃ p, pres = some p ∧ p ∈ preNodesL cs ∧ c.id = nid ∧
      delL nid cs = some (updAtL nid p.id cs) ∧
      ∃ l1 l2, p.children = l1 ++ c :: l2 ∧
        p.children.filter (fun x => decide (x.id ≠ nid)) = l1 ++ l2)
  | [], nid, par, c, pres, hf, _ => by
    rw [show findL [] nid par = none from rfl] at hf
    cases hf
  | c0 :: rest, nid, par, c, pres, hf, hnd => by
    rw [show findL (c0 :: rest) nid par =
      (match find_node c0 nid (some par) with
       | some r => some r
       | none => findL rest nid par) from rfl] at hf
    rw [show preNodesL (c0 :: rest) = preNodes c0 ++ preNodesL rest from rfl,
      List.map_append] at hnd
    have hnd0 := hnd.of_append_left
    have hndr := hnd.of_append_right
    have hdisj := List.disjoint_of_nodup_append hnd
    cases hfc : find_node c0 nid (some par) with
    | some r =>
      rw [hfc] at hf
      have hr : r = (c, pres) := Option.some.inj hf
      subst hr
      rw [find_node_eq] at hfc
      by_cases hi0 : c0.id = nid
      · rw [if_pos hi0] at hfc
        have hc1 : c = c0 := by
          injection hfc with h1
          injection h1 with h2 h3
          exact h2.symm
        have hc2 : pres = some par := by
          injection hfc with h1
          injection h1 with h2 h3
          exact h3.symm
        subst hc1
        left
        have hdrop : (decide (c.id ≠ nid)) = false := by simp [hi0]
        have hrest_nofilter : rest.filter (fun x => decide (x.id ≠ nid)) = rest := by
          refine List.filter_eq_self.mpr (fun x hx => ?_)
          simp only [decide_eq_true_eq]
          intro he
          have hmem1 : nid ∈ (preNodes c).map TreeNode.id := by
            rw [preNodes_eq, List.map_cons]
            exact List.mem_cons.mpr (Or.inl hi0.symm)
          have hmem2 : nid ∈ (preNodesL rest).map TreeNode.id := by
            rw [← he]
            exact List.mem_map.mpr ⟨x, mem_preNodesL_of_mem hx, rfl⟩
          exact hdisj hmem1 hmem2
        refine ⟨hc2, hi0, ?_, [], rest, rfl, ?_⟩
        · rw [delL_cons_eq, if_pos hi0, List.filter_cons, hdrop,
            if_neg Bool.false_ne_true]
        · rw [List.filter_cons, hdrop, if_neg Bool.false_ne_true, hrest_nofilter,
            List.nil_append]
      · rw [if_neg hi0] at hfc
        obtain ⟨p, hpres, hpmem, hcid, hdel0, l1, l2, hdec, hfil⟩ :=
          delT_frame c0 nid c pres hfc hnd0
        right
        refine ⟨p, hpres, ?_, hcid, ?_, l1, l2, hdec, hfil⟩
        · rw [show preNodesL (c0 :: rest) = preNodes c0 ++ preNodesL rest from rfl]
          exact List.mem_append.mpr (Or.inl hpmem)
        · have hfresh : ¬ p.id ∈ (preNodesL rest).map TreeNode.id := by
            intro hm
            refine hdisj ?_ hm
            exact List.mem_map.mpr ⟨p, hpmem, rfl⟩
          rw [delL_cons_eq, if_neg hi0, hdel0, updAtL_cons_eq,
            updAtL_eq_self rest nid p.id hfresh]
    | none =>
      rw [hfc] at hf
      have hn0 : ¬ nid ∈ idList c0 := (find_node_eq_none_iff c0 nid (some par)).mp hfc
      have hc0id : ¬ c0.id = nid := by
        intro he
        refine hn0 ?_
        rw [show idList c0 = (preNodes c0).map TreeNode.id from rfl, preNodes_eq,
          List.map_cons]
        exact List.mem_cons.mpr (Or.inl he.symm)
      have hdt0 : delT nid c0 = none := by
        refine (delT_eq_none_iff c0 nid).mpr ?_
        intro hm
        refine hn0 ?_
        rw [show idList c0 = (preNodes c0).map TreeNode.id from rfl, preNodes_eq,
          List.map_cons]
        exact List.mem_cons_of_mem _ hm
      have hkeep : (decide (c0.id ≠ nid)) = true := by simp [hc0id]
      cases delL_frame rest nid par c pres hf hndr with
      | inl hcase =>
        obtain ⟨hpres, hcid, hdel, l1, l2, hdec, hfil⟩ := hcase
        left
        refine ⟨hpres, hcid, ?_, c0 :: l1, l2, by rw [hdec, List.cons_append], ?_⟩
        · rw [delL_cons_eq, if_neg hc0id, hdt0, hdel, Option.map_some',
            List.filter_cons, hkeep, if_pos rfl]
        · rw [List.filter_cons, hkeep, if_pos rfl, hfil]
          rfl
      | inr hcase =>
        obtain ⟨p, hpres, hpmem, hcid, hdel, l1, l2, hdec, hfil⟩ := hcase
        right
        refine ⟨p, hpres, ?_, hcid, ?_, l1, l2, hdec, hfil⟩
        · rw [show preNodesL (c0 :: rest) = preNodes c0 ++ preNodesL rest from rfl]
          exact List.mem_append.mpr (Or.inr hpmem)
        · have hfresh : ¬ p.id ∈ (preNodes c0).map TreeNode.id := by
            intro hm
            refine hdisj hm ?_
            exact List.mem_map.mpr ⟨p, hpmem, rfl⟩
          rw [delL_cons_eq, if_neg hc0id, hdt0, hdel, Option.map_some',
            updAtL_cons_eq, updAt_eq_self c0 nid p.id hfresh]
end

/-- C7: for every tree whose TreeNode ids are globally unique, deleting an
existing non-root node id (one whose `find_node` result has a parent `p`)
succeeds and produces exactly `updAt nid p.id`, the tree in which the found
parent's children are filtered by id and every other node is mapped to
itself unchanged; moreover the parent's children list splits as
`l1 ++ c :: l2` around the single matching child and the filter returns
`l1 ++ l2`, removing exactly that child and preserving the relative order of
the remaining siblings. -/
theorem c7_delete_exact (tr : TreeNode) (nid : String) (c p : TreeNode)
    (hnd : (idList tr).Nodup)
    (hf : find_node tr nid none = some (c, some p)) :
    delT nid tr = some (updAt nid p.id tr) ∧ c.id = nid ∧
    ∃ l1 l2, p.children = l1 ++ c :: l2 ∧
      p.children.filter (fun x => decide (x.id ≠ nid)) = l1 ++ l2 := by
  rw [find_node_eq] at hf
  by_cases hi : tr.id = nid
  · rw [if_pos hi] at hf
    have h1 := Option.some.inj hf
    have h2 : (none : Option TreeNode) = some p := congrArg Prod.snd h1
    cases h2
  · rw [if_neg hi] at hf
    obtain ⟨p', hps, hpmem, hcid, hdel, l1, l2, hdec, hfil⟩ :=
      delT_frame tr nid c (some p) hf hnd
    have hpp : p = p' := Option.some.inj hps
    subst hpp
    exact ⟨hdel, hcid, l1, l2, hdec, hfil⟩

theorem c7_witness :
    (idList (TreeNode.mk "a" "A" "dA" none
        [.mk "b" "B" "dB" (some "x") [], .mk "c" "C" "dC" none []])).Nodup ∧
    (delT "b" (TreeNode.mk "a" "A" "dA" none
        [.mk "b" "B" "dB" (some "x") [], .mk "c" "C" "dC" none []]) =
      some (updAt "b" "a" (TreeNode.mk "a" "A" "dA" none
        [.mk "b" "B" "dB" (some "x") [], .mk "c" "C" "dC" none []])) ∧
     (TreeNode.mk "b" "B" "dB" (some "x") [] : TreeNode).id = "b" ∧
     ∃ l1 l2,
       (TreeNode.mk "a" "A" "dA" none
         [.mk "b" "B" "dB" (some "x") [], .mk "c" "C" "dC" none []]).children =
         l1 ++ (TreeNode.mk "b" "B" "dB" (some "x") []) :: l2 ∧
       ((TreeNode.mk "a" "A" "dA" none
         [.mk "b" "B" "dB" (some "x") [], .mk "c" "C" "dC" none []]).children).filter
         (fun x => decide (x.id ≠ "b")) = l1 ++ l2) :=
  ⟨by decide,
   c7_delete_exact
     (.mk "a" "A" "dA" none [.mk "b" "B" "dB" (some "x") [], .mk "c" "C" "dC" none []])
     "b" (.mk "b" "B" "dB" (some "x") [])
     (.mk "a" "A" "dA" none [.mk "b" "B" "dB" (some "x") [], .mk "c" "C" "dC" none []])
     (by decide) rfl⟩

end TreeEditor
